import Mathlib

/-!
Verification development for the quicc LR(1) parser generator.

The Python sources (grammar.py, parser.py) are shallowly embedded below.
Strings are `List Char`; Python sets are lists with insertion order and no
duplicates (Python's hash-based iteration order is modelled by the list
order); Python dicts are association lists in insertion order.  Mutation is
modelled by explicit state passing, including the set-aliasing performed by
`Grammar.follow_sets` (where the local variable `tmp` aliases a set stored
in one of the two dictionaries).  While-loops are modelled with an explicit
fuel argument.
-/

namespace Quicc

/-- Python strings are modelled as lists of characters. -/
abbrev Str := List Char

/-- Converts a Lean string literal to the embedded string type. -/
def str (s : String) : Str := s.data

/-- Characters that are awkward as literals: space. -/
def spc : Char := Char.ofNat 32

/-- Double-quote character. -/
def qch : Char := Char.ofNat 34

/-- Backslash character. -/
def bsl : Char := Char.ofNat 92

/-- Newline character. -/
def nl : Char := Char.ofNat 10

/-- Pipe character. -/
def pipeCh : Char := Char.ofNat 124

/-- Apostrophe character (appended to the start symbol by LR1Parser). -/
def apos : Char := Char.ofNat 39

/- Set operations on lists that model Python sets. -/

/-- Python `add`: append the element if it is not already present. -/
def sadd [DecidableEq α] (s : List α) (a : α) : List α :=
  if a ∈ s then s else s ++ [a]

/-- Python set union `s | t` (one possible iteration order). -/
def sunion [DecidableEq α] (s t : List α) : List α :=
  t.foldl sadd s

/-- Python set difference `s - t`. -/
def sdiff [DecidableEq α] (s t : List α) : List α :=
  s.filter (fun x => decide (x ∉ t))

/-- Boolean subset test between list-sets. -/
def subB [DecidableEq α] (s t : List α) : Bool :=
  s.all (fun x => decide (x ∈ t))

/-- Boolean set equality between list-sets (Python `set.__eq__`). -/
def seteqB [DecidableEq α] (s t : List α) : Bool :=
  subB s t && subB t s

/-- Removes duplicates keeping first occurrences (models building a set). -/
def sdedup [DecidableEq α] : List α → List α
  | [] => []
  | a :: t => if a ∈ t then sdedup t |> (fun r => if a ∈ r then r else a :: r) else a :: sdedup t

/- Association lists with an arbitrary boolean key equality, modelling
Python dicts (insertion order preserved, assignment replaces in place). -/

/-- Dict lookup with an explicit key equality. -/
def lookupBy (eq : κ → κ → Bool) (k : κ) : List (κ × β) → Option β
  | [] => none
  | (k2, v) :: t => if eq k k2 then some v else lookupBy eq k t

/-- Dict assignment `d[k] = v` with an explicit key equality: replaces the
value at the first matching key, otherwise appends. -/
def updBy (eq : κ → κ → Bool) (k : κ) (v : β) : List (κ × β) → List (κ × β)
  | [] => [(k, v)]
  | (k2, v2) :: t => if eq k k2 then (k, v) :: t else (k2, v2) :: updBy eq k v t

/-- Dict deletion `del d[k]` with an explicit key equality. -/
def delBy (eq : κ → κ → Bool) (k : κ) : List (κ × β) → List (κ × β)
  | [] => []
  | (k2, v2) :: t => if eq k k2 then t else (k2, v2) :: delBy eq k t

/-- Structural key equality, used for string-keyed dicts. -/
def streq (a b : Str) : Bool := decide (a = b)

/-- Lookup in a string-keyed dict. -/
def alookup (k : Str) (m : List (Str × β)) : Option β := lookupBy streq k m

/-- Assignment in a string-keyed dict. -/
def aupd (k : Str) (v : β) (m : List (Str × β)) : List (Str × β) := updBy streq k v m

/- The `tokenize` scanner of grammar.py (lines 10-62). -/

/-- State of the character loop inside `tokenize`. -/
structure TokSt where
  ret : List Str
  cur : Str
  quote : Bool
  escape : Bool
  lastws : Bool

/-- Python `str.strip` restricted to the whitespace characters that occur in
this code base (spaces and newlines). -/
def pstrip (s : Str) : Str :=
  ((s.dropWhile (fun c => c = spc ∨ c = nl)).reverse.dropWhile (fun c => c = spc ∨ c = nl)).reverse

/-- One character step of `tokenize`; `none` models a raised exception. -/
def tokStep (st : TokSt) (c : Char) : Option TokSt :=
  if st.escape then
    some { st with cur := st.cur ++ [c], escape := false, lastws := false }
  else if c = spc then
    if st.quote then
      some { st with cur := st.cur ++ [c], lastws := true }
    else
      some { st with ret := if pstrip st.cur ≠ [] then st.ret ++ [st.cur] else st.ret,
                     cur := [], lastws := true }
  else if c = qch then
    if ¬ st.quote ∧ ¬ st.lastws then none
    else some { st with quote := ¬ st.quote, lastws := false }
  else if c = bsl ∧ ¬ st.quote then
    some { st with escape := true, lastws := false }
  else
    some { st with cur := st.cur ++ [c], lastws := false }

/-- Folds `tokStep` over a string. -/
def tokFold (st : TokSt) : Str → Option TokSt
  | [] => some st
  | c :: cs =>
    match tokStep st c with
    | none => none
    | some st2 => tokFold st2 cs

/-- grammar.py `tokenize`: lexes a production right-hand side into tokens;
`none` models a raised exception. -/
def tokenize (rhs : Str) : Option (List Str) :=
  match tokFold ⟨[], [], false, false, true⟩ (rhs ++ [spc]) with
  | none => none
  | some st =>
    if st.quote then none
    else if st.escape then none
    else if st.ret.length ≠ 1 then some (st.ret.filter (fun x => decide (x ≠ str "#")))
    else some st.ret

/- The grammar model (grammar.py class Grammar). -/

/-- Embedded `Grammar`: `rules` maps each non-terminal to its production
set (a duplicate-free list modelling the `frozenset` in one iteration
order); `start` is the designated start symbol. -/
structure PyGrammar where
  rules : List (Str × List (List Str))
  start : Str
deriving DecidableEq

/-- Python `Grammar.nonterms()`: the start symbol followed by the remaining
rule keys. -/
def nonterms (g : PyGrammar) : List Str :=
  g.start :: (g.rules.map Prod.fst).filter (fun x => decide (x ≠ g.start))

/-- Python `Grammar.__getitem__`: the productions of a non-terminal. -/
def gLookup (g : PyGrammar) (nt : Str) : List (List Str) :=
  (alookup nt g.rules).getD []

/-- Python `Grammar.__iter__`: all `(nonterm, production)` pairs, non-terminals
in `nonterms()` order. -/
def gprods (g : PyGrammar) : List (Str × List Str) :=
  (nonterms g).foldr (fun nt acc => (gLookup g nt).map (fun p => (nt, p)) ++ acc) []

/-- Python `Grammar.terminals()`: symbols of productions that are not
non-terminals. -/
def terminals (g : PyGrammar) : List Str :=
  (gprods g).foldl (fun acc p => p.2.foldl (fun a x => if x ∈ nonterms g then a else sadd a x) acc) []

/- The epsilon-nonterminal (NULLABLE) computation in Grammar.__init__
(grammar.py lines 197-214). -/

/-- One pass of the NULLABLE loop: a non-terminal joins the set when every
token of one of its productions is already in the set. -/
def entPass (g : PyGrammar) (s : List Str) : List Str :=
  (gprods g).foldl
    (fun acc p => if p.2.all (fun tok => decide (tok ∈ acc)) then sunion acc [p.1] else acc) s

/-- The NULLABLE loop exactly as written in `Grammar.__init__`: the loop
body assigns `self.__ent` when a pass makes no change but contains no
`break` or `return`, so control never leaves the `while True`.  The result
is `some` only if the loop exits, which never happens; `none` means the
fuel ran out with the loop still running. -/
def entLoopSrc (g : PyGrammar) : Nat → List Str → Option (List Str)
  | 0, _ => none
  | fuel + 1, s => entLoopSrc g fuel (entPass g s)

/-- The NULLABLE fixpoint the loop is documented to compute (the value the
code repeatedly assigns to `self.__ent` once a pass makes no change): iterate
`entPass` from `{#}` until stable. -/
def entLoop (g : PyGrammar) : Nat → List Str → List Str
  | 0, s => s
  | fuel + 1, s =>
    let s2 := entPass g s
    if s2.length = s.length then s2 else entLoop g fuel s2

/-- Python `Grammar.epsilon_nonterms()` (the intended stable value). -/
def epsilonNonterms (g : PyGrammar) : List Str :=
  entLoop g ((nonterms g).length + 2) [str "#"]

/- first_sets (grammar.py lines 243-282). -/

/-- Inner token loop of `first_sets` for one production; returns the updated
map, the updated flag, and whether the loop broke before completion. -/
def fsProd (eps : List Str) (nt : Str) :
    List Str → List (Str × List Str) → Bool → List (Str × List Str) × Bool × Bool
  | [], ret, upd => (ret, upd, false)
  | tok :: rest, ret, upd =>
    let cur := (alookup nt ret).getD []
    let new := sunion cur (sdiff ((alookup tok ret).getD []) [str "#"])
    let ret2 := aupd nt new ret
    let upd2 := upd || decide (new.length ≠ cur.length)
    if tok ∈ eps then fsProd eps nt rest ret2 upd2 else (ret2, upd2, true)

/-- One production of `first_sets`, with the `for`-`else` clause that adds
`#` when the token loop completes without breaking (the flag is not
touched by that addition, as in the source). -/
def fsOneProd (eps : List Str) (p : Str × List Str) (st : List (Str × List Str) × Bool) :
    List (Str × List Str) × Bool :=
  let (ret, upd, broke) := fsProd eps p.1 p.2 st.1 st.2
  if broke then (ret, upd)
  else (aupd p.1 (sunion ((alookup p.1 ret).getD []) [str "#"]) ret, upd)

/-- One full pass of `first_sets` over all productions. -/
def fsPass (g : PyGrammar) (eps : List Str) (ret : List (Str × List Str)) :
    List (Str × List Str) × Bool :=
  (gprods g).foldl (fun st p => fsOneProd eps p st) (ret, false)

/-- The `while True` loop of `first_sets`, with fuel. -/
def fsLoop (g : PyGrammar) (eps : List Str) : Nat → List (Str × List Str) → List (Str × List Str)
  | 0, ret => ret
  | fuel + 1, ret =>
    let (ret2, upd) := fsPass g eps ret
    if upd then fsLoop g eps fuel ret2 else ret2

/-- Python `Grammar.first_sets()`: seeds non-terminals empty and terminals
with themselves, iterates to stability, then drops the terminal keys. -/
def firstSets (g : PyGrammar) (fuel : Nat) : List (Str × List Str) :=
  let ret0 := (nonterms g).map (fun nt => (nt, ([] : List Str)))
      ++ (terminals g).map (fun t => (t, [t]))
  let res := fsLoop g (epsilonNonterms g) fuel ret0
  res.filter (fun kv => decide (kv.1 ∉ terminals g))

/- follow_sets (grammar.py lines 284-330), including its set aliasing. -/

/-- Which set object the local variable `tmp` of `follow_sets` currently
aliases: a cell of the FOLLOW dict `ret` or a cell of the FIRST dict `fs`. -/
inductive TmpRef where
  | rcell (nt : Str)
  | fcell (k : Str)

/-- State of `follow_sets`: the FIRST dict (mutable through `tmp`), the
FOLLOW dict, and the `updated` flag. -/
structure FoSt where
  fs : List (Str × List Str)
  ret : List (Str × List Str)
  upd : Bool

/-- Reads the set `tmp` currently aliases. -/
def rdTmp (st : FoSt) : TmpRef → List Str
  | .rcell nt => (alookup nt st.ret).getD []
  | .fcell k => (alookup k st.fs).getD []

/-- Python `tmp |= xs`: unions into the aliased cell, without touching the
`updated` flag. -/
def wrTmp (st : FoSt) (r : TmpRef) (xs : List Str) : FoSt :=
  match r with
  | .rcell nt => { st with ret := aupd nt (sunion ((alookup nt st.ret).getD []) xs) st.ret }
  | .fcell k => { st with fs := aupd k (sunion ((alookup k st.fs).getD []) xs) st.fs }

/-- One token of the reversed-production walk in `follow_sets`. -/
def foTok (nts eps : List Str) (stR : FoSt × TmpRef) (tok : Str) : FoSt × TmpRef :=
  let st := stR.1
  let r := stR.2
  let st :=
    if tok ∈ nts then
      let s1 := (alookup tok st.ret).getD []
      let n := sunion s1 (rdTmp st r)
      { st with ret := aupd tok n st.ret, upd := st.upd || decide (n.length ≠ s1.length) }
    else st
  if tok ∈ eps then
    (wrTmp st r (sdiff ((alookup tok st.fs).getD []) [str "#"]), r)
  else
    (st, .fcell tok)

/-- One production of `follow_sets`: `tmp` starts as an alias of
`ret[nt]` and the production is walked in reverse. -/
def foProd (nts eps : List Str) (st : FoSt) (p : Str × List Str) : FoSt :=
  (p.2.reverse.foldl (foTok nts eps) (st, .rcell p.1)).1

/-- One full pass of `follow_sets` over all productions. -/
def foPass (g : PyGrammar) (nts eps : List Str) (st : FoSt) : FoSt :=
  (gprods g).foldl (foProd nts eps) st

/-- The `while True` loop of `follow_sets`, with fuel. -/
def foLoop (g : PyGrammar) (nts eps : List Str) : Nat → FoSt → List (Str × List Str)
  | 0, st => st.ret
  | fuel + 1, st =>
    let st2 := foPass g nts eps { st with upd := false }
    if st2.upd then foLoop g nts eps fuel st2 else st2.ret

/-- Python `Grammar.follow_sets()`. -/
def followSets (g : PyGrammar) (ffuel lfuel : Nat) : List (Str × List Str) :=
  let fs0 := firstSets g ffuel
  let fs1 := (terminals g).foldl (fun m t => aupd t [t] m) fs0
  let ret0 := aupd g.start [str "$"] ((nonterms g).map (fun nt => (nt, ([] : List Str))))
  foLoop g (nonterms g) (epsilonNonterms g) lfuel ⟨fs1, ret0, false⟩

/- Grammar equality (grammar.py lines 394-399 and 95-98): dict equality of
`__rules`, each Nonterm compared by symbol and production frozenset.  The
start symbol is not consulted. -/

/-- Production frozensets compared as sets. -/
def prodSetEq (a b : List (List Str)) : Bool :=
  a.all (fun p => decide (p ∈ b)) && b.all (fun p => decide (p ∈ a))

/-- Python `Grammar.__eq__`: equality of the `__rules` dicts (same key set,
and for each key the same production set). -/
def gramEq (g1 g2 : PyGrammar) : Bool :=
  (g1.rules.map Prod.fst).all (fun k => decide (k ∈ g2.rules.map Prod.fst)) &&
  (g2.rules.map Prod.fst).all (fun k => decide (k ∈ g1.rules.map Prod.fst)) &&
  g1.rules.all (fun kv =>
    match alookup kv.1 g2.rules with
    | some ps => prodSetEq kv.2 ps
    | none => false)

/- Grammar string conversion (grammar.py lines 109-110 and 428-429). -/

/-- Python `" ".join(tokens)`. -/
def joinSpaces : List Str → Str
  | [] => []
  | [x] => x
  | x :: t => x ++ [spc] ++ joinSpaces t

/-- Python `Nonterm.__str__`: `sym -> p1 | p2 | ...`, built by a fold and a
3-character drop exactly as in the source. -/
def ntermStr (nt : Str) (prods : List (List Str)) : Str :=
  nt ++ str " -> " ++ (prods.foldl (fun a b => a ++ str " | " ++ joinSpaces b) []).drop 3

/-- Python `Grammar.__str__`: one line per non-terminal, start first. -/
def gstr (g : PyGrammar) : Str :=
  ((nonterms g).foldl (fun a nt => a ++ [nl] ++ ntermStr nt (gLookup g nt)) []).drop 1

/- Grammar construction from rule lines (grammar.py lines 120-163). -/

/-- Python `rule.split("->")` specialised to the two-character separator. -/
def splitArrowAux : Str → Str → List Str
  | acc, [] => [acc.reverse]
  | acc, [c] => [(c :: acc).reverse]
  | acc, c :: d :: ds =>
    if c = '-' ∧ d = '>' then acc.reverse :: splitArrowAux [] ds
    else splitArrowAux (c :: acc) (d :: ds)

/-- Splits a rule line on the `->` separator. -/
def splitArrow (s : Str) : List Str := splitArrowAux [] s

/-- Python `s.split(sep)` for a one-character separator. -/
def splitChar (sep : Char) : Str → List Str
  | [] => [[]]
  | c :: t =>
    if c = sep then [] :: splitChar sep t
    else
      match splitChar sep t with
      | h :: r => (c :: h) :: r
      | [] => [[c]]

/-- First phase of `Grammar.__init_iter_str`: splits each line on `->`,
records the start symbol and groups right-hand sides by non-terminal.
`none` models a raised exception. -/
def fromRulesVals : List Str → Str → List (Str × List Str) → Option (Str × List (Str × List Str))
  | [], start, vals => some (start, vals)
  | line :: rest, start, vals =>
    match (splitArrow line).map pstrip with
    | [sym, rhs] =>
      let start2 := if start = [] then sym else start
      let vals2 :=
        match alookup sym vals with
        | some l => aupd sym (l ++ [rhs]) vals
        | none => vals ++ [(sym, [rhs])]
      fromRulesVals rest start2 vals2
    | _ => none

/-- Production set of one Nonterm built from right-hand-side strings:
`frozenset(tokenize(x) for st in rhs for x in st.split("|"))`, first
occurrences kept. -/
def mkNontermProds (rhss : List Str) : Option (List (List Str)) :=
  rhss.foldl
    (fun acc st =>
      (splitChar pipeCh st).foldl
        (fun acc2 x =>
          match acc2, tokenize x with
          | some l, some p => some (if p ∈ l then l else l ++ [p])
          | _, _ => none)
        acc)
    (some [])

/-- Python `Grammar.__init_iter_str` composed with `Grammar.__init__`:
builds a grammar from rule lines; `none` models a raised exception. -/
def fromRules (lines : List Str) : Option PyGrammar :=
  match fromRulesVals lines [] [] with
  | none => none
  | some (start, vals) =>
    let rules := vals.foldr
      (fun kv acc =>
        match acc, mkNontermProds kv.2 with
        | some r, some ps => some ((kv.1, ps) :: r)
        | _, _ => none)
      (some [])
    match rules with
    | none => none
    | some r => some ⟨r, start⟩

/- Canonical FOLLOW sets, as defined by the specification (section 4.2).
These definitions follow the spec's words and exist only to be compared
with the embedded source code. -/

/-- Modelled from the spec: one pass of the canonical NULLABLE fixpoint. -/
def specNullPass (g : PyGrammar) (s : List Str) : List Str :=
  (gprods g).foldl
    (fun acc p => if p.2.all (fun tok => decide (tok ∈ acc)) then sadd acc p.1 else acc) s

/-- Modelled from the spec: canonical NULLABLE, seeded with `#`. -/
def specNullable (g : PyGrammar) : List Str :=
  Nat.rec [str "#"] (fun _ acc => specNullPass g acc) ((nonterms g).length + 2)

/-- Modelled from the spec: one pass of the canonical FIRST fixpoint. -/
def specFirstPass (g : PyGrammar) (nullable : List Str) (m : List (Str × List Str)) :
    List (Str × List Str) :=
  (gprods g).foldl
    (fun acc p =>
      let rec addPre (toks : List Str) (cur : List Str) : List Str :=
        match toks with
        | [] => cur
        | x :: rest =>
          let cur2 := sunion cur (sdiff ((alookup x acc).getD []) [str "#"])
          if x ∈ nullable then addPre rest cur2 else cur2
      let withPre := addPre p.2 ((alookup p.1 acc).getD [])
      let withEps :=
        if p.2.all (fun x => decide (x ∈ nullable)) then sunion withPre [str "#"] else withPre
      aupd p.1 withEps acc)
    m

/-- Modelled from the spec: canonical FIRST map over non-terminals and
terminals. -/
def specFirstMap (g : PyGrammar) : List (Str × List Str) :=
  let init := (nonterms g).map (fun nt => (nt, ([] : List Str)))
      ++ (terminals g).map (fun t => (t, [t]))
  let fuel := ((nonterms g).length + (terminals g).length + 2) *
      ((terminals g).length + 2) + 2
  Nat.rec init (fun _ acc => specFirstPass g (specNullable g) acc) fuel

/-- Modelled from the spec: FIRST of a symbol sequence, without `#`. -/
def specFirstOfSeq (g : PyGrammar) (β : List Str) : List Str :=
  let fm := specFirstMap g
  let nullable := specNullable g
  let rec go (toks : List Str) (acc : List Str) : List Str :=
    match toks with
    | [] => acc
    | x :: rest =>
      let acc2 := sunion acc (sdiff ((alookup x fm).getD []) [str "#"])
      if x ∈ nullable then go rest acc2 else acc2
  go β []

/-- Walks one production `A -> α B β` for the canonical FOLLOW pass: at
each occurrence of a non-terminal `B`, adds `FIRST(β)` without `#` to
`FOLLOW(B)` and, when `β` is nullable or empty, also `FOLLOW(A)`. -/
def specFollowProd (g : PyGrammar) (a : Str) :
    List Str → List (Str × List Str) → List (Str × List Str)
  | [], acc => acc
  | b :: βtail, acc =>
    let acc2 :=
      if b ∈ nonterms g then
        let fir := specFirstOfSeq g βtail
        let inc :=
          if βtail.all (fun x => decide (x ∈ specNullable g)) then
            sunion fir ((alookup a acc).getD [])
          else fir
        aupd b (sunion ((alookup b acc).getD []) inc) acc
      else acc
    specFollowProd g a βtail acc2

/-- Modelled from the spec: one pass of the canonical FOLLOW fixpoint. -/
def specFollowPass (g : PyGrammar) (m : List (Str × List Str)) : List (Str × List Str) :=
  (gprods g).foldl (fun acc p => specFollowProd g p.1 p.2 acc) m

/-- Modelled from the spec: the canonical FOLLOW fixpoint, seeded with
`FOLLOW(start) = {$}`. -/
def specFollowMap (g : PyGrammar) : List (Str × List Str) :=
  let init := aupd g.start [str "$"] ((nonterms g).map (fun nt => (nt, ([] : List Str))))
  let fuel := ((nonterms g).length + 1) * ((terminals g).length + 2) + 2
  Nat.rec init (fun _ acc => specFollowPass g acc) fuel

/- The lookahead computation of parser.py (lines 15-49). -/

/-- Scans one sequence popped from the stack of `lookahead`: accumulates
terminals into `ret`, expands non-terminals not yet passed (pushing their
productions), and reports whether the scan stopped at a non-nullable
symbol (`hit`).  Returns the updated `ret`, `nt_passed`, the productions
pushed, and the `hit` flag. -/
def laSeq (g : PyGrammar) (eps nts : List Str) :
    List Str → List Str → List Str → List (List Str) →
    List Str × List Str × List (List Str) × Bool
  | [], ret, ntp, pushed => (ret, ntp, pushed, false)
  | tok :: rest, ret, ntp, pushed =>
    if tok ∈ nts then
      if tok ∈ ntp then
        if tok ∈ eps then laSeq g eps nts rest ret ntp pushed
        else (ret, ntp, pushed, true)
      else
        let ntp2 := sadd ntp tok
        let pushed2 := pushed ++ gLookup g tok
        if tok ∈ eps then laSeq g eps nts rest ret ntp2 pushed2
        else (ret, ntp2, pushed2, true)
    else
      let ret2 := sadd ret tok
      if tok ∈ eps then laSeq g eps nts rest ret2 ntp pushed
      else (ret2, ntp, pushed, true)

/-- The while-loop of `lookahead` over the FIFO stack of sequences; when a
sequence is scanned to completion without a hit, the sentinel `$$` is
added. -/
def laLoop (g : PyGrammar) (eps nts : List Str) :
    Nat → List (List Str) → List Str → List Str → List Str
  | 0, _, _, ret => ret
  | _ + 1, [], _, ret => ret
  | fuel + 1, cur :: stk, ntp, ret =>
    let r := laSeq g eps nts cur ret ntp []
    let ret2 := if r.2.2.2 then r.1 else sadd r.1 (str "$$")
    laLoop g eps nts fuel (stk ++ r.2.2.1) r.2.1 ret2

/-- Fuel that always lets `laLoop` drain its stack: one for the initial
sequence plus one for every production that can ever be pushed. -/
def laFuel (g : PyGrammar) : Nat := (gprods g).length + 2

/-- parser.py `lookahead(prod, dotpos, grammar)`. -/
def lookaheadFn (prod : List Str) (dotpos : Nat) (g : PyGrammar) : List Str :=
  if prod.length - 1 ≤ dotpos then [str "$$"]
  else laLoop g (epsilonNonterms g) (nonterms g) (laFuel g) [prod.drop (dotpos + 1)] [] []

/- LR(1) items (parser.py class Item). -/

/-- Embedded `Item`: non-terminal, production, lookahead (follow) set and
dot position. -/
structure Item where
  nt : Str
  prod : List Str
  follow : List Str
  dotpos : Nat
deriving DecidableEq

/-- Python `Item.__eq__`: all four components, the follow compared as a
set. -/
def itemBEq (a b : Item) : Bool :=
  decide (a.nt = b.nt) && decide (a.prod = b.prod) && seteqB a.follow b.follow &&
    decide (a.dotpos = b.dotpos)

/-- Membership in a list of items under `Item.__eq__`. -/
def memItem (a : Item) : List Item → Bool
  | [] => false
  | b :: t => itemBEq a b || memItem a t

/-- Python tuple equality for item sequences. -/
def itemsBEq : List Item → List Item → Bool
  | [], [] => true
  | a :: as2, b :: bs => itemBEq a b && itemsBEq as2 bs
  | _, _ => false

/-- Python `Item.is_reduce()`. -/
def isReduce (it : Item) : Bool := decide (it.prod.length ≤ it.dotpos)

/-- Python `Item.current()` (callers guard `dotpos < len(prod)`). -/
def currentSym (it : Item) : Str := it.prod.getD it.dotpos []

/-- Python `Item.advanced()`. -/
def advanced (it : Item) : Item := { it with dotpos := it.dotpos + 1 }

/-- Replaces the `$$` sentinel in a freshly computed lookahead set by the
parent follow, as done twice inside `Item.closure`. -/
def substSentinel (lh par : List Str) : List Str :=
  if str "$$" ∈ lh then sunion (sdiff lh [str "$$"]) par else lh

/-- State of the breadth-first loop in `Item.closure`: the accumulated item
sequence, the queue, the `parent_follows` dict (keyed by `Item.__eq__`) and
the `lookahead_buf` memo keyed by production. -/
structure ClosSt where
  ret : List Item
  q : List Item
  pf : List (Item × List Str)
  buf : List (List Str × List Str)

/-- One production step of the closure expansion of a dequeued item `n`:
creates the child item with follow `parent_follows[n]`, queues it, and
records its parent-follow (memoised lookahead with `$$` replaced by
`parent_follows[n]`). -/
def closStep (g : PyGrammar) (n : Item) (pfn : List Str) (st2 : ClosSt) (prod : List Str) :
    ClosSt :=
  let tmp : Item := ⟨currentSym n, prod, pfn, 0⟩
  let q2 := st2.q ++ [tmp]
  let (lh, buf2) :=
    match lookupBy (fun a b => decide (a = b)) prod st2.buf with
    | some l => (l, st2.buf)
    | none =>
      let l := lookaheadFn prod 0 g
      (l, st2.buf ++ [(prod, l)])
  let lh2 := substSentinel lh pfn
  { ret := st2.ret, q := q2, pf := updBy itemBEq tmp lh2 st2.pf, buf := buf2 }

/-- Expands one dequeued item of the closure over all productions of the
symbol after its dot. -/
def closExpand (g : PyGrammar) (n : Item) (pfn : List Str) (st : ClosSt) : ClosSt :=
  (gLookup g (currentSym n)).foldl (closStep g n pfn) st

/-- The while-loop of `Item.closure`, with fuel. -/
def closLoop (g : PyGrammar) : Nat → ClosSt → List Item
  | 0, st => st.ret
  | _ + 1, ⟨ret, [], _, _⟩ => ret
  | fuel + 1, ⟨ret, n :: qrest, pf, buf⟩ =>
    if memItem n ret then closLoop g fuel ⟨ret, qrest, pf, buf⟩
    else if isReduce n then closLoop g fuel ⟨ret ++ [n], qrest, pf, buf⟩
    else if currentSym n ∈ nonterms g then
      closLoop g fuel (closExpand g n ((lookupBy itemBEq n pf).getD []) ⟨ret ++ [n], qrest, pf, buf⟩)
    else closLoop g fuel ⟨ret ++ [n], qrest, pf, buf⟩

/-- Python `Item.closure(grammar)` with explicit fuel for the loop. -/
def closure (it : Item) (g : PyGrammar) (fuel : Nat) : List Item :=
  let pf0 := substSentinel (lookaheadFn it.prod it.dotpos g) it.follow
  closLoop g fuel ⟨[], [it], [(it, pf0)], []⟩

/- Conflict resolvers (parser.py lines 137-146).  `resolve_throw` raises and
is not modelled; resolvers are modelled as total functions. -/

/-- Python `resolve_shift`: prefer the shift item. -/
def resolveShift (i1 i2 : Item) : Item := if isReduce i1 then i2 else i1

/-- Python `resolve_reduce`: prefer the reduce item. -/
def resolveReduce (i1 i2 : Item) : Item := if isReduce i2 then i2 else i1

/- The canonical collection builder (parser.py ItemSet.generate). -/

/-- Embedded `ItemSet`: item sequence, shift table (symbol to successor
index and originating item) and reduce table (symbol to reducing item). -/
structure ItemSetE where
  items : List Item
  shiftT : List (Str × (Nat × Item))
  reduceT : List (Str × Item)
deriving DecidableEq

/-- The empty item set, used as a lookup default. -/
def emptyItemSet : ItemSetE := ⟨[], [], []⟩

/-- Working state of `ItemSet.generate`: the dense state list and the
fingerprint index `hit` from item sequences to state indices. -/
structure GenSt where
  states : List ItemSetE
  hit : List (List Item × Nat)

/-- Tables of the state currently being processed. -/
structure CurTabs where
  shiftT : List (Str × (Nat × Item))
  reduceT : List (Str × Item)

/-- The goto merge of `ItemSet.generate`: appends to the existing successor
items every target item not already present (under `Item.__eq__`). -/
def mergeInto (old target : List Item) : List Item :=
  target.foldl (fun acc x => if memItem x acc then acc else acc ++ [x]) old

/-- A list of items none of whose follow sets contains the sentinel `$$`. -/
def ddFreeItems (l : List Item) : Prop := ∀ it ∈ l, str "$$" ∉ it.follow

/-- The C7 invariant for one state: no item follow contains `$$` and `$$`
is not a reduce-table key. -/
def stateNoSentinel (s : ItemSetE) : Prop :=
  ddFreeItems s.items ∧ ∀ kv ∈ s.reduceT, kv.1 ≠ str "$$"

/-- The reduce/reduce branch for one lookahead character of a reduce item:
when the character is already a reduce key for a different non-terminal,
the resolver's result is stored. -/
def genReduceRR (resolver : Item → Item → Item) (item : Item) (c : Str)
    (red : List (Str × Item)) : List (Str × Item) :=
  match alookup c red with
  | some it0 =>
    if decide (it0.nt ≠ item.nt) then aupd c (resolver it0 item) red else red
  | none => red

/-- The shift/reduce branch for one lookahead character of a reduce item:
when the character is a shift key, the resolver decides; a reduce result
removes the shift entry and installs the reduce. -/
def genReduceSR (resolver : Item → Item → Item) (item : Item) (c : Str)
    (sh : List (Str × (Nat × Item))) (red : List (Str × Item)) :
    List (Str × (Nat × Item)) × List (Str × Item) :=
  match alookup c sh with
  | some sv =>
    if isReduce (resolver sv.2 item) then (delBy streq c sh, aupd c item red)
    else (sh, red)
  | none => (sh, red)

/-- Handles one lookahead character of a reduce item, exactly as in the
source: the reduce/reduce branch, then the shift/reduce branch, then the
unconditional reduce installation (the line-181 assignment). -/
def genReduceChar (resolver : Item → Item → Item) (item : Item) (tb : CurTabs) (c : Str) :
    CurTabs :=
  let red1 := genReduceRR resolver item c tb.reduceT
  let p := genReduceSR resolver item c tb.shiftT red1
  ⟨p.1, aupd c item p.2⟩

/-- Whether a non-reduce item is skipped: its symbol is already a reduce
key and the resolver prefers that reduce item. -/
def genSkip (resolver : Item → Item → Item) (item : Item)
    (red : List (Str × Item)) : Bool :=
  match alookup (currentSym item) red with
  | some rIt => isReduce (resolver rIt item)
  | none => false

/-- The reduce table after the shift/reduce check of a non-skipped
non-reduce item: a losing reduce entry for the item's symbol is deleted. -/
def genRedAfterSkip (resolver : Item → Item → Item) (item : Item)
    (red : List (Str × Item)) : List (Str × Item) :=
  match alookup (currentSym item) red with
  | some rIt =>
    if isReduce (resolver rIt item) then red else delBy streq (currentSym item) red
  | none => red

/-- Installs the shift entry once the goto target is final: reuses the
fingerprint index when known, otherwise appends a fresh state. -/
def genGotoFinish (c : Str) (item : Item) (st : GenSt) (target : List Item) (tb : CurTabs) :
    GenSt × CurTabs :=
  match lookupBy itemsBEq target st.hit with
  | some j => (st, ⟨aupd c (j, item) tb.shiftT, tb.reduceT⟩)
  | none =>
    (⟨st.states ++ [⟨target, [], []⟩], updBy itemsBEq target st.states.length st.hit⟩,
     ⟨aupd c (st.states.length, item) tb.shiftT, tb.reduceT⟩)

/-- The goto computation of a non-reduce item: closure of the advanced
item, merged into the existing successor when the symbol already has a
shift entry. -/
def genGoto (g : PyGrammar) (cfuel : Nat) (item : Item) (st : GenSt) (tb : CurTabs) :
    GenSt × CurTabs :=
  let target0 := closure (advanced item) g cfuel
  match alookup (currentSym item) tb.shiftT with
  | some sv =>
    let old := ((st.states.get? sv.1).getD emptyItemSet).items
    let merged := mergeInto old target0
    let states2 :=
      st.states.set sv.1 { ((st.states.get? sv.1).getD emptyItemSet) with items := merged }
    genGotoFinish (currentSym item) item ⟨states2, updBy itemsBEq merged sv.1 st.hit⟩ merged tb
  | none => genGotoFinish (currentSym item) item st target0 tb

/-- Processes one non-reduce item of the state being built: optional
shift/reduce resolution against an existing reduce entry (skipping the item
when the resolver prefers the reduce), then the goto computation. -/
def genShiftItem (g : PyGrammar) (resolver : Item → Item → Item) (cfuel : Nat) (item : Item)
    (st : GenSt) (tb : CurTabs) : GenSt × CurTabs :=
  if genSkip resolver item tb.reduceT then (st, tb)
  else genGoto g cfuel item st ⟨tb.shiftT, genRedAfterSkip resolver item tb.reduceT⟩

/-- Processes the items of one state in order. -/
def genItems (g : PyGrammar) (resolver : Item → Item → Item) (cfuel : Nat) :
    List Item → GenSt → CurTabs → GenSt × CurTabs
  | [], st, tb => (st, tb)
  | item :: rest, st, tb =>
    if isReduce item then
      genItems g resolver cfuel rest st (item.follow.foldl (genReduceChar resolver item) tb)
    else
      genItems g resolver cfuel rest (genShiftItem g resolver cfuel item st tb).1
        (genShiftItem g resolver cfuel item st tb).2

/-- The outer `while i < len(ret)` loop of `ItemSet.generate`: processes
state `i` over a snapshot of its item sequence and writes the finished
tables back. -/
def genLoop (g : PyGrammar) (resolver : Item → Item → Item) (cfuel : Nat) :
    Nat → Nat → GenSt → List ItemSetE
  | 0, _, st => st.states
  | fuel + 1, i, st =>
    if i < st.states.length then
      let res := genItems g resolver cfuel ((st.states.get? i).getD emptyItemSet).items st ⟨[], []⟩
      genLoop g resolver cfuel fuel (i + 1)
        ⟨res.1.states.set i
          ⟨((res.1.states.get? i).getD emptyItemSet).items, res.2.shiftT, res.2.reduceT⟩,
         res.1.hit⟩
    else st.states

/-- Python `ItemSet.generate(base, grammar, resolver)` with explicit fuel. -/
def generate (base : List Item) (g : PyGrammar) (resolver : Item → Item → Item)
    (cfuel fuel : Nat) : List ItemSetE :=
  genLoop g resolver cfuel fuel 0 ⟨[⟨base, [], []⟩], [(base, 0)]⟩

/- The lexer (grammar.py Grammar.lex, lines 332-383).  A compiled regex is
modelled by its prefix-matching function `Str → Option Str` (the value
`re.Pattern.match` would return at position 0). -/

/-- A named regex rule: name and prefix matcher. -/
abbrev SpclRule := Str × (Str → Option Str)

/-- The literal terminals the lexer checks: the grammar's terminals minus
the regex-mapped names. -/
def lexTerms (g : PyGrammar) (spcl : List SpclRule) : List Str :=
  sdiff (terminals g) (spcl.map Prod.fst)

/-- The literal-terminal loop: keeps the longest literal that is a prefix
of the line (strictly longer replaces). -/
def pickLit (line : Str) (terms : List Str) (acc : Str × Str) : Str × Str :=
  terms.foldl
    (fun a s => if s.isPrefixOf line then (if a.2.length < s.length then (s, s) else a) else a)
    acc

/-- The regex loop: a regex match replaces the current candidate only when
strictly longer. -/
def pickRe (line : Str) (spcl : List SpclRule) (acc : Str × Str) : Str × Str :=
  spcl.foldl
    (fun a nm =>
      match nm.2 line with
      | some r => if a.2.length < r.length then (nm.1, r) else a
      | none => a)
    acc

/-- One token selection of the lexer at the current line remainder. -/
def pickTok (g : PyGrammar) (spcl : List SpclRule) (line : Str) : Str × Str :=
  pickRe line spcl (pickLit line (lexTerms g spcl) ([], []))

/-- The inner `while line != ""` loop of `lex`; `none` models the raised
`CFGException` on an unmatched prefix. -/
def lexLine (g : PyGrammar) (spcl : List SpclRule) :
    Nat → Str → List (Str × Str) → Option (List (Str × Str))
  | 0, _, _ => none
  | _ + 1, [], acc => some acc
  | fuel + 1, line, acc =>
    let longest := pickTok g spcl line
    if longest.1 = [] then none
    else lexLine g spcl fuel (pstrip (line.drop longest.2.length)) (acc ++ [longest])

/-- Python `Grammar.lex(ip, spcl)` over a list of input lines. -/
def lexFn (g : PyGrammar) (spcl : List SpclRule) (fuel : Nat) :
    List Str → List (Str × Str) → Option (List (Str × Str))
  | [], acc => some acc
  | line :: rest, acc =>
    match lexLine g spcl fuel (pstrip line) acc with
    | none => none
    | some acc2 => lexFn g spcl fuel rest acc2

/- The parse driver (parser.py LR1Parser, lines 274-326). -/

/-- Parse-time errors: the user-level no-transition error (with state and
lookahead) and the internal-invariant errors raised during a reduce. -/
inductive PErr where
  | noTransition (state : Nat) (sym : Str)
  | internalErr
deriving DecidableEq

/-- Result of one parse step. -/
inductive StepRes where
  | cont (triples : List (Str × Str)) (stack : List (Str ⊕ Nat))
  | accept
  | perr (e : PErr)
deriving DecidableEq

/-- Pops `2 * len(prod)` stack entries during a reduce, checking the popped
symbols against the production in reverse, as in the source. -/
def popProd : List Str → List (Str ⊕ Nat) → Option (List (Str ⊕ Nat))
  | [], stack => some stack
  | x :: rest, stack =>
    if stack.length < 3 then none
    else
      match stack.getLast? with
      | some (Sum.inr _) =>
        let s1 := stack.dropLast
        match s1.getLast? with
        | some (Sum.inl tmp) => if tmp = x then popProd rest s1.dropLast else none
        | _ => none
      | _ => none

/-- One iteration of the `while True` parse loop. -/
def parseStep (sets : List ItemSetE) (gstart : Str) (triples : List (Str × Str))
    (stack : List (Str ⊕ Nat)) : StepRes :=
  match triples.head? with
  | none => .perr .internalErr
  | some (look, _) =>
    match stack.getLast? with
    | some (Sum.inr state) =>
      let st := (sets.get? state).getD emptyItemSet
      match alookup look st.shiftT with
      | some sv => .cont triples.tail (stack ++ [Sum.inl look, Sum.inr sv.1])
      | none =>
        match alookup look st.reduceT with
        | some item =>
          match popProd item.prod.reverse stack with
          | none => .perr .internalErr
          | some stack2 =>
            match stack2.getLast? with
            | some (Sum.inr state2) =>
              let st2 := (sets.get? state2).getD emptyItemSet
              match alookup item.nt st2.shiftT with
              | none => .perr .internalErr
              | some gv =>
                if item.nt = gstart ∧ look = str "$" then .accept
                else .cont triples (stack2 ++ [Sum.inl item.nt, Sum.inr gv.1])
            | _ => .perr .internalErr
        | none =>
          match alookup (str "#") st.shiftT with
          | some hv => .cont triples (stack ++ [Sum.inl (str "#"), Sum.inr hv.1])
          | none => .perr (.noTransition state look)
    | _ => .perr .internalErr

/-- Final outcome of a fuel-bounded parse run. -/
inductive PRes where
  | accept
  | perr (e : PErr)
  | fuelOut
deriving DecidableEq

/-- The `while True` loop of `LR1Parser.parse`, with fuel. -/
def parseLoop (sets : List ItemSetE) (gstart : Str) :
    Nat → List (Str × Str) → List (Str ⊕ Nat) → PRes
  | 0, _, _ => .fuelOut
  | fuel + 1, triples, stack =>
    match parseStep sets gstart triples stack with
    | .cont t2 s2 => parseLoop sets gstart fuel t2 s2
    | .accept => .accept
    | .perr e => .perr e

/-- Python `LR1Parser.parse` on an already-lexed token list: appends the
`($, $)` end marker and starts from stack `[$, 0]`. -/
def parseRun (sets : List ItemSetE) (gstart : Str) (tokens : List (Str × Str)) (fuel : Nat) :
    PRes :=
  parseLoop sets gstart fuel (tokens ++ [(str "$", str "$")])
    [Sum.inl (str "$"), Sum.inr 0]

/-- Python `LR1Parser.__init__`: augments the grammar textually with a
fresh start rule, re-parses `str(grammar)`, and generates the canonical
collection from the closure of the fresh start item. -/
def lr1Init (g : PyGrammar) (resolver : Item → Item → Item) (cfuel gfuel : Nat) :
    Option (List ItemSetE) :=
  let oldStart := g.start
  let newStart := oldStart ++ [apos]
  let newRule := newStart ++ str " -> " ++ oldStart
  match fromRules (newRule :: splitChar nl (gstr g)) with
  | none => none
  | some g2 =>
    some (generate (closure ⟨newStart, [oldStart], [str "$"], 0⟩ g2 cfuel) g2 resolver cfuel gfuel)

/- Concrete grammars used to settle the claims. -/

/-- Grammar `S -> C C ; C -> e C | d` from the repository's tests. -/
def gBasic : PyGrammar :=
  ⟨[(str "S", [[str "C", str "C"]]), (str "C", [[str "e", str "C"], [str "d"]])], str "S"⟩

/-- Grammar `Z -> S ; S -> a C t ; C -> B t | u ; B -> C`, whose canonical
collection contains a state with a shift item on `t` listed before a reduce
item whose lookahead contains `t`. -/
def gC2 : PyGrammar :=
  ⟨[(str "Z", [[str "S"]]), (str "S", [[str "a", str "C", str "t"]]),
    (str "C", [[str "B", str "t"], [str "u"]]), (str "B", [[str "C"]])], str "Z"⟩

/-- Canonical collection of `gC2` built with `resolve_shift`. -/
def c2sets : List ItemSetE :=
  generate (closure ⟨str "Z", [str "S"], [str "$"], 0⟩ gC2 30) gC2 resolveShift 30 40

/-- Grammar `S -> A ; A -> a | #`, on which the aliasing in `follow_sets`
adds `FIRST(A)` to `FOLLOW(S)`. -/
def gC3 : PyGrammar :=
  ⟨[(str "S", [[str "A"]]), (str "A", [[str "a"], [str "#"]])], str "S"⟩

/-- Grammar `S -> a A ; A -> #`, whose parser reaches a state where the
lookahead is in neither action table but `#` is in the shift table. -/
def gC4 : PyGrammar :=
  ⟨[(str "S", [[str "a", str "A"]]), (str "A", [[str "#"]])], str "S"⟩

/-- Canonical collection the LR1Parser constructor builds for `gC4`. -/
def c4sets : List ItemSetE := (lr1Init gC4 resolveShift 30 40).getD []

/-- Grammar `Z -> S ; S -> a A x | a B x ; A -> c ; B -> c`, which has a
reduce/reduce conflict on lookahead `x` between `A -> c .` and `B -> c .`. -/
def gC5 : PyGrammar :=
  ⟨[(str "Z", [[str "S"]]),
    (str "S", [[str "a", str "A", str "x"], [str "a", str "B", str "x"]]),
    (str "A", [[str "c"]]), (str "B", [[str "c"]])], str "Z"⟩

/-- A resolver that always keeps its first argument (the earlier-installed
item). -/
def rFirst (i1 _ : Item) : Item := i1

/-- Canonical collection of `gC5` built with the first-argument resolver. -/
def c5sets : List ItemSetE :=
  generate (closure ⟨str "Z", [str "S"], [str "$"], 0⟩ gC5 30) gC5 rFirst 30 40

/-- The reduce item `A -> c . {x}`. -/
def c5A : Item := ⟨str "A", [str "c"], [str "x"], 1⟩

/-- The reduce item `B -> c . {x}`. -/
def c5B : Item := ⟨str "B", [str "c"], [str "x"], 1⟩

/-- Grammar `S -> c A b ; A -> a | #`, for the lookahead sentinel claim. -/
def gC6 : PyGrammar :=
  ⟨[(str "S", [[str "c", str "A", str "b"]]), (str "A", [[str "a"], [str "#"]])], str "S"⟩

/-- Grammar `S -> abc | abcd` from the repository's lexer tests. -/
def gC9 : PyGrammar := ⟨[(str "S", [[str "abc"], [str "abcd"]])], str "S"⟩

/-- The grammar built by `Grammar(["S -> a", "T -> b"])`. -/
def c8g1 : PyGrammar := ⟨[(str "S", [[str "a"]]), (str "T", [[str "b"]])], str "S"⟩

/-- The grammar built by `Grammar(["T -> b", "S -> a"])`. -/
def c8g2 : PyGrammar := ⟨[(str "T", [[str "b"]]), (str "S", [[str "a"]])], str "T"⟩

/-- A grammar value with production `("a", "#")`, constructible through the
tuple form of `Grammar.__init__`. -/
def gBad : PyGrammar := ⟨[(str "S", [[str "a", str "#"]])], str "S"⟩

/-- The grammar that re-parsing `str(gBad)` produces. -/
def gBadRt : PyGrammar := ⟨[(str "S", [[str "a"]])], str "S"⟩

/-- True when two adjacent characters form the `->` separator. -/
def hasArrow : Str → Bool
  | c :: d :: t => (decide (c = '-') && decide (d = '>')) || hasArrow (d :: t)
  | _ => false

/-- The symbol conditions stated by claim C10: no whitespace, quote,
backslash or pipe character, and no `->` substring. -/
def symClean (s : Str) : Bool :=
  s.all (fun c => decide (c ≠ spc ∧ c ≠ nl ∧ c ≠ qch ∧ c ≠ bsl ∧ c ≠ pipeCh)) && ! hasArrow s

/-- Every symbol occurring in the grammar: the start symbol, the rule keys
and all production tokens. -/
def gramSymbols (g : PyGrammar) : List Str :=
  g.start :: g.rules.foldr (fun kv acc => kv.1 :: kv.2.foldr (fun p a => p ++ a) acc) []

/-- Claim C10's hypothesis on a grammar's symbols. -/
def c10SymbolsOk (g : PyGrammar) : Bool := (gramSymbols g).all symClean

/-- The string `sep ++ f x1 ++ sep ++ f x2 ++ ...`, the shape produced by
the reduce-with-separator folds of `Nonterm.__str__` and
`Grammar.__str__`. -/
def preJoin (sep : Str) (f : α → Str) : List α → Str
  | [] => []
  | x :: t => sep ++ f x ++ preJoin sep f t

/-- The pieces after the first that `rhs.split("|")` produces from a
pipe-joined production list: every piece carries the padding spaces of the
`" | "` separators. -/
def altPiecesTail : List (List Str) → List Str
  | [] => []
  | q :: t => (spc :: (joinSpaces q ++ if t = [] then [] else [spc])) :: altPiecesTail t

/-- The conditions a production must satisfy for the round trip: non-empty
and made of clean non-empty tokens, with `#` only as the epsilon
singleton. -/
def prodOk (p : List Str) : Prop :=
  p ≠ [] ∧ (∀ tok ∈ p, tok ≠ [] ∧ symClean tok = true) ∧
    ((str "#") ∈ p → p = [str "#"])

/-- The pipe-joined production body of one non-terminal, as produced by
`Nonterm.__str__` after the 3-character drop. -/
def bodyOf (g : PyGrammar) (nt : Str) : Str :=
  match gLookup g nt with
  | [] => []
  | p :: t => joinSpaces p ++ preJoin (str " | ") joinSpaces t

/-- The well-formedness conditions under which the `str`/`from_rules`
round trip holds: duplicate-free rule keys, a record for the start symbol,
clean non-empty symbols, non-empty production lists, non-empty productions,
and `#` only as the singleton epsilon production. -/
def c10WF (g : PyGrammar) : Bool :=
  (gramSymbols g).all (fun s => symClean s && decide (s ≠ [])) &&
  decide ((g.rules.map Prod.fst).Nodup) &&
  decide (g.start ∈ g.rules.map Prod.fst) &&
  g.rules.all (fun kv =>
    decide (kv.2 ≠ []) &&
    kv.2.all (fun p =>
      decide (p ≠ []) && (decide ((str "#") ∉ p) || decide (p = [str "#"]))))

/-- The longest-match contract for one token emitted by the lexer at line
remainder `rest`: the token is one of the candidates (a recognized literal
terminal that prefixes the remainder, emitted as itself, or a regex match
with its rule's name); no literal candidate and no regex match is strictly
longer; and whenever a literal candidate ties the emitted length, the
emitted token is exactly that literal. -/
def PickOk (g : PyGrammar) (spcl : List SpclRule) (rest : Str) (tok : Str × Str) : Prop :=
  ((∃ s ∈ lexTerms g spcl, s.isPrefixOf rest = true ∧ tok = (s, s)) ∨
    (∃ nm ∈ spcl, nm.2 rest = some tok.2 ∧ tok.1 = nm.1)) ∧
  (∀ s ∈ lexTerms g spcl, s.isPrefixOf rest = true → s.length ≤ tok.2.length) ∧
  (∀ nm ∈ spcl, ∀ r, nm.2 rest = some r → r.length ≤ tok.2.length) ∧
  (∀ s ∈ lexTerms g spcl, s.isPrefixOf rest = true → s.length = tok.2.length →
    tok = (s, s))

/-- The longest-match contract threaded along the actual remainders of the
inner lexer loop: the first token is the pick at the current remainder and
satisfies the longest-match contract there, and the remainder then
advances past exactly the emitted lexeme (whitespace-stripped, as in the
source); a completed line leaves an empty remainder. -/
def lexChain (g : PyGrammar) (spcl : List SpclRule) : Str → List (Str × Str) → Prop
  | line, [] => line = []
  | line, tok :: rest =>
    tok = pickTok g spcl line ∧ tok.1 ≠ [] ∧ PickOk g spcl line tok ∧
    lexChain g spcl (pstrip (line.drop tok.2.length)) rest

/-- The per-line decomposition of a full `lex` run: the emitted tokens
split into consecutive segments, one per input line, each segment chained
to the actual remainders of its (stripped) line. -/
def lexLinesChain (g : PyGrammar) (spcl : List SpclRule) :
    List Str → List (Str × Str) → Prop
  | [], toks => toks = []
  | line :: rest, toks =>
    ∃ t1 t2, toks = t1 ++ t2 ∧ lexChain g spcl (pstrip line) t1 ∧
      lexLinesChain g spcl rest t2

/- Theorems settling the claims. -/

/-- C1: the claim states that grammar construction terminates for every
finite list of well-formed rule lines because the NULLABLE computation
stops once a full pass makes no change.  In the source the `while True`
loop of `Grammar.__init__` contains no `break` or `return`: once a pass is
stable it assigns `self.__ent` and keeps iterating, so for every grammar
and every number of executed iterations the loop is still running and the
constructor never returns. -/
theorem c1_nullable_loop_never_returns (g : PyGrammar) (fuel : Nat) (s : List Str) :
    entLoopSrc g fuel s = none := by
  induction fuel generalizing s with
  | zero => rfl
  | succ n ih => exact ih _

/-- C2: the claim states that with a resolver returning one of its two
arguments (here `resolve_shift`) no symbol ends up in both the shift and
the reduce table of a generated state.  In the canonical collection of
`gC2` state 3 holds both a shift and a reduce entry for terminal `t`: the
unconditional reduce installation after the conflict branch re-adds the
reduce entry the resolver had rejected. -/
theorem c2_resolved_conflict_leaves_both_actions :
    (alookup (str "t") ((c2sets.get? 3).getD emptyItemSet).shiftT).isSome = true ∧
    (alookup (str "t") ((c2sets.get? 3).getD emptyItemSet).reduceT).isSome = true := by
  exact ⟨rfl, rfl⟩

/-- C3: the claim states `follow_sets()` returns exactly the canonical
FOLLOW fixpoint with no other terminals.  On `S -> A ; A -> a | #` the
source's `tmp = ret[nt]` aliasing adds `FIRST(A) = {a}` into `FOLLOW(S)`,
a terminal the canonical fixpoint does not contain. -/
theorem c3_follow_sets_not_canonical :
    decide (str "a" ∈ ((alookup (str "S") (followSets gC3 20 20)).getD [])) = true ∧
    decide (str "a" ∈ ((alookup (str "S") (specFollowMap gC3)).getD [])) = false := by
  exact ⟨rfl, by decide⟩

/-- C4 counterexample: the claim states that when the lookahead is in
neither action table the parse fails with a no-transition error and no
other action is performed.  For the parser of `S -> a A ; A -> #`, after
shifting `a` the lookahead `$` is in neither table of state 2, yet the
step shifts the symbol `#` (not equal to the lookahead) and the whole
parse of `a` accepts instead of failing. -/
theorem c4_counterexample_epsilon_shift :
    alookup (str "$") ((c4sets.get? 2).getD emptyItemSet).shiftT = none ∧
    alookup (str "$") ((c4sets.get? 2).getD emptyItemSet).reduceT = none ∧
    parseStep c4sets (str "S") [(str "a", str "a"), (str "$", str "$")]
      [Sum.inl (str "$"), Sum.inr 0] =
      .cont [(str "$", str "$")] [Sum.inl (str "$"), Sum.inr 0, Sum.inl (str "a"), Sum.inr 2] ∧
    parseStep c4sets (str "S") [(str "$", str "$")]
      [Sum.inl (str "$"), Sum.inr 0, Sum.inl (str "a"), Sum.inr 2] =
      .cont [(str "$", str "$")]
        [Sum.inl (str "$"), Sum.inr 0, Sum.inl (str "a"), Sum.inr 2,
          Sum.inl (str "#"), Sum.inr 4] ∧
    parseRun c4sets (str "S") [(str "a", str "a")] 100 = PRes.accept := by
  exact ⟨rfl, rfl, rfl, rfl, rfl⟩

/-- C5: the claim states that for a reduce/reduce conflict the item the
resolver returns is installed and never overwritten by the later item.  In
state 4 of `gC5`, built with a resolver that keeps its first argument, the
resolver returns `A -> c . {x}` but the final reduce entry for `x` is the
later item `B -> c . {x}`: the unconditional installation after the
conflict branch discards the resolver's choice. -/
theorem c5_resolver_choice_overwritten :
    alookup (str "x") ((c5sets.get? 4).getD emptyItemSet).reduceT = some c5B ∧
    rFirst c5A c5B = c5A ∧ c5A ≠ c5B ∧
    memItem c5A ((c5sets.get? 4).getD emptyItemSet).items = true ∧
    memItem c5B ((c5sets.get? 4).getD emptyItemSet).items = true := by
  exact ⟨rfl, rfl, by decide, rfl, rfl⟩

/-- C6 counterexample: the claim states `$$` is in `lookahead(p, d, G)` only
if the tail after the dot is wholly nullable (or empty).  For production
`(c, A, b)` at dot 0 in `S -> c A b ; A -> a | #` the tail `(A, b)` ends in
the non-nullable terminal `b`, yet the result contains `$$`, added while
scanning the wholly-nullable production `(#,)` of the expanded
non-terminal `A`. -/
theorem c6_counterexample_sentinel_nonnullable_tail :
    decide (str "$$" ∈ lookaheadFn [str "c", str "A", str "b"] 0 gC6) = true ∧
    ([str "A", str "b"].all (fun t => decide (t ∈ epsilonNonterms gC6))) = false ∧
    decide ((0 : Int) + 1 > ([str "c", str "A", str "b"].length : Int) - 1) = false := by
  exact ⟨rfl, rfl, by decide⟩

/-- C4 (amended): when the current lookahead is in neither the shift nor
the reduce table of the current top state and `#` is not in the shift
table either, the parse step fails with the no-transition parse error
carrying that state index and lookahead. -/
theorem c4_no_transition_error (sets : List ItemSetE) (gstart : Str)
    (triples : List (Str × Str)) (stack : List (Str ⊕ Nat)) (look raw : Str) (state : Nat)
    (htr : triples.head? = some (look, raw))
    (hst : stack.getLast? = some (Sum.inr state))
    (h1 : alookup look ((sets.get? state).getD emptyItemSet).shiftT = none)
    (h2 : alookup look ((sets.get? state).getD emptyItemSet).reduceT = none)
    (h3 : alookup (str "#") ((sets.get? state).getD emptyItemSet).shiftT = none) :
    parseStep sets gstart triples stack = .perr (.noTransition state look) := by
  unfold parseStep
  rw [htr, hst]
  simp only [h1, h2, h3]

/-- Witness for C4's amended theorem: in state 0 of the parser for
`S -> a A ; A -> #`, the unknown lookahead `z` triggers the no-transition
error. -/
theorem c4_no_transition_error_witness :
    parseStep c4sets (str "S") [(str "z", str "z")] [Sum.inl (str "$"), Sum.inr 0] =
      .perr (.noTransition 0 (str "z")) :=
  c4_no_transition_error c4sets (str "S") [(str "z", str "z")]
    [Sum.inl (str "$"), Sum.inr 0] (str "z") (str "z") 0 rfl rfl rfl rfl rfl

/-- Membership is preserved by the set `add` operation. -/
theorem mem_sadd [DecidableEq α] {s : List α} {x : α} (a : α) (h : x ∈ s) : x ∈ sadd s a := by
  unfold sadd
  split
  · exact h
  · exact List.mem_append_left _ h

/-- The added element is a member after `add`. -/
theorem mem_sadd_self [DecidableEq α] (s : List α) (a : α) : a ∈ sadd s a := by
  unfold sadd
  split
  · assumption
  · simp

/-- The `ret` accumulator of the sequence scan only grows. -/
theorem laSeq_ret_mono (g : PyGrammar) (eps nts : List Str) (cur : List Str)
    (ret ntp : List Str) (pushed : List (List Str)) (x : Str) (h : x ∈ ret) :
    x ∈ (laSeq g eps nts cur ret ntp pushed).1 := by
  induction cur generalizing ret ntp pushed with
  | nil => exact h
  | cons tok rest ih =>
    unfold laSeq
    split
    · split
      · split
        · exact ih ret ntp pushed h
        · exact h
      · split
        · exact ih ret _ _ h
        · exact h
    · split
      · exact ih _ ntp pushed (mem_sadd tok h)
      · exact mem_sadd tok h

/-- Scanning a sequence whose symbols are all in the nullable set never
hits a stopping symbol. -/
theorem laSeq_no_hit (g : PyGrammar) (eps nts : List Str) (cur : List Str)
    (ret ntp : List Str) (pushed : List (List Str)) (h : ∀ t ∈ cur, t ∈ eps) :
    (laSeq g eps nts cur ret ntp pushed).2.2.2 = false := by
  induction cur generalizing ret ntp pushed with
  | nil => rfl
  | cons tok rest ih =>
    have htok : tok ∈ eps := h tok (by simp)
    have hrest : ∀ t ∈ rest, t ∈ eps := fun t ht => h t (by simp [ht])
    unfold laSeq
    by_cases h1 : tok ∈ nts
    · by_cases h2 : tok ∈ ntp
      · simp only [if_pos h1, if_pos h2, if_pos htok]
        exact ih ret ntp pushed hrest
      · simp only [if_pos h1, if_neg h2, if_pos htok]
        exact ih _ _ _ hrest
    · simp only [if_neg h1, if_pos htok]
      exact ih _ _ _ hrest

/-- The `ret` accumulator of the lookahead loop only grows. -/
theorem laLoop_ret_mono (g : PyGrammar) (eps nts : List Str) (fuel : Nat)
    (stk : List (List Str)) (ntp ret : List Str) (x : Str) (h : x ∈ ret) :
    x ∈ laLoop g eps nts fuel stk ntp ret := by
  induction fuel generalizing stk ntp ret with
  | zero => exact h
  | succ n ih =>
    cases stk with
    | nil => exact h
    | cons cur rest =>
      have hr := laSeq_ret_mono g eps nts cur ret ntp [] x h
      unfold laLoop
      apply ih
      by_cases hc : (laSeq g eps nts cur ret ntp []).2.2.2 = true
      · simp only [hc, if_pos]
        exact hr
      · simp only [Bool.not_eq_true] at hc
        simp only [hc, Bool.false_eq_true, if_false]
        exact mem_sadd _ hr

/-- C6 (amended): the sentinel `$$` belongs to `lookahead(p, d, G)`
whenever `d + 1 > len(p) - 1` or every symbol of the tail `p[d+1:]` is
nullable (membership in `epsilon_nonterms`).  The converse direction of
the claim is refuted by `c6_counterexample_sentinel_nonnullable_tail`. -/
theorem c6_sentinel_when_tail_nullable (prod : List Str) (dotpos : Nat) (g : PyGrammar)
    (h : prod.length - 1 ≤ dotpos ∨ ∀ t ∈ prod.drop (dotpos + 1), t ∈ epsilonNonterms g) :
    str "$$" ∈ lookaheadFn prod dotpos g := by
  unfold lookaheadFn
  by_cases hg : prod.length - 1 ≤ dotpos
  · simp [hg]
  · have htail : ∀ t ∈ prod.drop (dotpos + 1), t ∈ epsilonNonterms g := h.resolve_left hg
    rw [if_neg hg]
    have hfuel : laFuel g = ((gprods g).length + 1) + 1 := rfl
    rw [hfuel]
    unfold laLoop
    apply laLoop_ret_mono
    rw [laSeq_no_hit g (epsilonNonterms g) (nonterms g) _ [] [] [] htail]
    simp only [Bool.false_eq_true, if_false]
    exact mem_sadd_self _ _

/-- Witness for C6's amended theorem: for production `(c, A)` at dot 0 in
`gC6` the tail `(A,)` is wholly nullable, and `$$` is in the lookahead. -/
theorem c6_sentinel_when_tail_nullable_witness :
    str "$$" ∈ lookaheadFn [str "c", str "A"] 0 gC6 :=
  c6_sentinel_when_tail_nullable [str "c", str "A"] 0 gC6 (Or.inr (by decide))

/-- C8 counterexample: the claim states grammars with identical rules but
different start symbols are unequal.  `Grammar.__eq__` compares only the
`__rules` dicts, so the grammars built from the same two rule lines in the
two orders compare equal although their start symbols differ. -/
theorem c8_counterexample_start_ignored :
    fromRules [str "S -> a", str "T -> b"] = some c8g1 ∧
    fromRules [str "T -> b", str "S -> a"] = some c8g2 ∧
    gramEq c8g1 c8g2 = true ∧ ¬ c8g1.start = c8g2.start := by
  exact ⟨rfl, rfl, rfl, by decide⟩

/-- Unfolding lemma for association-list lookup. -/
theorem alookup_cons {β : Type} (k k2 : Str) (v : β) (t : List (Str × β)) :
    alookup k ((k2, v) :: t) = if k = k2 then some v else alookup k t := by
  simp only [alookup, lookupBy, streq]
  by_cases h : k = k2 <;> simp [h]

/-- A lookup succeeds exactly when the key occurs in the key list. -/
theorem alookup_isSome_iff_mem {β : Type} (k : Str) (m : List (Str × β)) :
    (alookup k m).isSome ↔ k ∈ m.map Prod.fst := by
  induction m with
  | nil => simp [alookup, lookupBy]
  | cons kv t ih =>
    rw [show kv = (kv.1, kv.2) from rfl, alookup_cons]
    by_cases h : k = kv.1
    · rw [if_pos h, List.map_cons]
      constructor
      · intro _
        exact List.mem_cons.mpr (Or.inl h)
      · intro _
        rfl
    · rw [if_neg h, List.map_cons, ih]
      constructor
      · exact fun hm => List.mem_cons_of_mem _ hm
      · intro hm
        rcases List.mem_cons.mp hm with he | hm2
        · exact absurd he h
        · exact hm2

/-- A successful lookup returns an entry of the list. -/
theorem alookup_mem {β : Type} (k : Str) (m : List (Str × β)) (v : β)
    (h : alookup k m = some v) : (k, v) ∈ m := by
  induction m with
  | nil => exact absurd h (by simp [alookup, lookupBy])
  | cons kv t ih =>
    rw [show kv = (kv.1, kv.2) from rfl, alookup_cons] at h
    by_cases hk : k = kv.1
    · rw [if_pos hk] at h
      have hv : kv.2 = v := Option.some.inj h
      rw [List.mem_cons]
      left
      rw [hk, ← hv]
    · rw [if_neg hk] at h
      exact List.mem_cons_of_mem _ (ih h)

/-- With duplicate-free keys, every entry is found by lookup. -/
theorem alookup_eq_of_mem_nodup {β : Type} (k : Str) (m : List (Str × β)) (v : β)
    (hmem : (k, v) ∈ m) (hnd : (m.map Prod.fst).Nodup) : alookup k m = some v := by
  induction m with
  | nil => simp at hmem
  | cons kv t ih =>
    rw [show kv = (kv.1, kv.2) from rfl, alookup_cons]
    rcases List.mem_cons.mp hmem with heq | hmem2
    · rw [if_pos (congrArg Prod.fst heq)]
      rw [← heq]
    · have hk : k ≠ kv.1 := by
        intro hkk
        have hmm : kv.1 ∈ t.map Prod.fst := List.mem_map.mpr ⟨(k, v), hmem2, hkk⟩
        simp only [List.map_cons, List.nodup_cons] at hnd
        exact hnd.1 hmm
      rw [if_neg hk]
      have hnd2 : (t.map Prod.fst).Nodup := by
        simp only [List.map_cons, List.nodup_cons] at hnd
        exact hnd.2
      exact ih hmem2 hnd2

/-- Boolean subset unfolds to quantified membership. -/
theorem subB_iff [DecidableEq α] (s t : List α) : subB s t = true ↔ ∀ x ∈ s, x ∈ t := by
  simp [subB, List.all_eq_true]

/-- Production-set equality unfolds to membership equivalence. -/
theorem prodSetEq_iff (a b : List (List Str)) :
    prodSetEq a b = true ↔ ∀ p, p ∈ a ↔ p ∈ b := by
  simp only [prodSetEq, Bool.and_eq_true, List.all_eq_true, decide_eq_true_eq]
  constructor
  · rintro ⟨h1, h2⟩ p
    exact ⟨fun hp => h1 p hp, fun hp => h2 p hp⟩
  · intro h
    exact ⟨fun p hp => (h p).1 hp, fun p hp => (h p).2 hp⟩

/-- C8 (amended): for grammars with duplicate-free rule keys, `Grammar`
equality holds exactly when the two rule records are extensionally equal:
the same non-terminals are defined and every non-terminal has the same set
of productions.  The start symbols play no part (the counterexample
`c8_counterexample_start_ignored` shows equal grammars with different
starts), and the characterization is independent of the order in which
alternatives were declared. -/
theorem c8_equality_ignores_start (g1 g2 : PyGrammar)
    (h1 : (g1.rules.map Prod.fst).Nodup) :
    gramEq g1 g2 = true ↔
      ((∀ nt, (alookup nt g1.rules).isSome ↔ (alookup nt g2.rules).isSome) ∧
       (∀ nt p, p ∈ gLookup g1 nt ↔ p ∈ gLookup g2 nt)) := by
  simp only [gramEq, Bool.and_eq_true, List.all_eq_true, decide_eq_true_eq]
  constructor
  · rintro ⟨⟨hk1, hk2⟩, hv⟩
    have hkeys : ∀ nt, (alookup nt g1.rules).isSome ↔ (alookup nt g2.rules).isSome := by
      intro nt
      rw [alookup_isSome_iff_mem, alookup_isSome_iff_mem]
      exact ⟨fun h => hk1 nt h, fun h => hk2 nt h⟩
    refine ⟨hkeys, fun nt p => ?_⟩
    cases hl1 : alookup nt g1.rules with
    | none =>
      have hiff := hkeys nt
      rw [hl1] at hiff
      cases hl2 : alookup nt g2.rules with
      | none => simp [gLookup, hl1, hl2]
      | some ps =>
        rw [hl2] at hiff
        simp at hiff
    | some v =>
      have hmem := alookup_mem nt g1.rules v hl1
      have hmatch := hv (nt, v) hmem
      cases hl2 : alookup nt g2.rules with
      | none =>
        rw [hl2] at hmatch
        simp at hmatch
      | some ps =>
        rw [hl2] at hmatch
        have hps := (prodSetEq_iff v ps).mp hmatch
        simp only [gLookup, hl1, hl2, Option.getD_some]
        exact hps p
  · rintro ⟨hkeys, hprod⟩
    have hsub1 : ∀ k ∈ g1.rules.map Prod.fst, k ∈ g2.rules.map Prod.fst := by
      intro k hk
      rw [← alookup_isSome_iff_mem]
      exact (hkeys k).1 ((alookup_isSome_iff_mem k g1.rules).mpr hk)
    have hsub2 : ∀ k ∈ g2.rules.map Prod.fst, k ∈ g1.rules.map Prod.fst := by
      intro k hk
      rw [← alookup_isSome_iff_mem]
      exact (hkeys k).2 ((alookup_isSome_iff_mem k g2.rules).mpr hk)
    refine ⟨⟨hsub1, hsub2⟩, fun kv hkv => ?_⟩
    have hl1 : alookup kv.1 g1.rules = some kv.2 :=
      alookup_eq_of_mem_nodup kv.1 g1.rules kv.2 (by simpa using hkv) h1
    have hk2mem : kv.1 ∈ g2.rules.map Prod.fst :=
      hsub1 kv.1 (List.mem_map.mpr ⟨kv, hkv, rfl⟩)
    have : (alookup kv.1 g2.rules).isSome := (alookup_isSome_iff_mem _ _).mpr hk2mem
    cases hl2 : alookup kv.1 g2.rules with
    | none =>
      rw [hl2] at this
      simp at this
    | some ps =>
      show prodSetEq kv.2 ps = true
      refine (prodSetEq_iff kv.2 ps).mpr fun p => ?_
      have hpp := hprod kv.1 p
      simpa only [gLookup, hl1, hl2, Option.getD_some] using hpp

/-- Witness for C8's amended theorem at the concrete grammars `c8g1` and
`c8g2`, whose key lists are duplicate-free. -/
theorem c8_equality_ignores_start_witness :
    gramEq c8g1 c8g2 = true ↔
      ((∀ nt, (alookup nt c8g1.rules).isSome ↔ (alookup nt c8g2.rules).isSome) ∧
       (∀ nt p, p ∈ gLookup c8g1 nt ↔ p ∈ gLookup c8g2 nt)) :=
  c8_equality_ignores_start c8g1 c8g2 (by decide)

/-- Membership after the set `add` operation. -/
theorem mem_sadd_iff [DecidableEq α] (s : List α) (a x : α) :
    x ∈ sadd s a ↔ x ∈ s ∨ x = a := by
  unfold sadd
  split
  · rename_i h
    constructor
    · exact Or.inl
    · rintro (hx | rfl)
      · exact hx
      · exact h
  · simp [List.mem_append]

/-- Membership in a set union. -/
theorem mem_sunion_iff [DecidableEq α] (s t : List α) (x : α) :
    x ∈ sunion s t ↔ x ∈ s ∨ x ∈ t := by
  induction t generalizing s with
  | nil => simp [sunion]
  | cons a t ih =>
    show x ∈ sunion (sadd s a) t ↔ _
    rw [ih, mem_sadd_iff]
    simp only [List.mem_cons]
    tauto

/-- Membership in a set difference. -/
theorem mem_sdiff_iff [DecidableEq α] (s t : List α) (x : α) :
    x ∈ sdiff s t ↔ x ∈ s ∧ x ∉ t := by
  simp [sdiff, List.mem_filter]

/-- Substituting the sentinel by a sentinel-free parent follow leaves the
result sentinel-free. -/
theorem substSentinel_ddfree (lh par : List Str) (h : str "$$" ∉ par) :
    str "$$" ∉ substSentinel lh par := by
  unfold substSentinel
  split
  · intro hmem
    rcases (mem_sunion_iff _ _ _).mp hmem with h1 | h1
    · exact ((mem_sdiff_iff _ _ _).mp h1).2 (by simp)
    · exact h h1
  · rename_i hn
    exact hn

/-- A fold preserves an invariant provided every step does. -/
theorem foldl_preserves {α χ : Type} {P : α → Prop} {Q : χ → Prop} (f : α → χ → α)
    (hstep : ∀ a x, P a → Q x → P (f a x)) :
    ∀ (l : List χ) (a0 : α), P a0 → (∀ x ∈ l, Q x) → P (l.foldl f a0) := by
  intro l
  induction l with
  | nil => exact fun a0 h0 _ => h0
  | cons x t ih =>
    intro a0 h0 hl
    exact ih (f a0 x) (hstep a0 x h0 (hl x (by simp))) (fun y hy => hl y (by simp [hy]))

/-- Dict assignment preserves a property of all stored values. -/
theorem updBy_val_prop {κ β : Type} (P : β → Prop) (eq : κ → κ → Bool) (k : κ) (v : β)
    (m : List (κ × β)) (hm : ∀ kv ∈ m, P kv.2) (hv : P v) :
    ∀ kv ∈ updBy eq k v m, P kv.2 := by
  induction m with
  | nil =>
    intro kv hkv
    simp only [updBy, List.mem_singleton] at hkv
    rw [hkv]
    exact hv
  | cons kv0 t ih =>
    intro kv hkv
    unfold updBy at hkv
    split at hkv
    · rcases List.mem_cons.mp hkv with heq | hmem
      · rw [heq]
        exact hv
      · exact hm kv (List.mem_cons_of_mem _ hmem)
    · rcases List.mem_cons.mp hkv with heq | hmem
      · rw [heq]
        exact hm kv0 (List.mem_cons_self _ _)
      · exact ih (fun kv2 h2 => hm kv2 (List.mem_cons_of_mem _ h2)) kv hmem

/-- Dict assignment preserves a property of all stored keys, provided the
assigned key has it. -/
theorem updBy_key_prop {κ β : Type} (P : κ → Prop) (eq : κ → κ → Bool) (k : κ) (v : β)
    (m : List (κ × β)) (hm : ∀ kv ∈ m, P kv.1) (hk : P k) :
    ∀ kv ∈ updBy eq k v m, P kv.1 := by
  induction m with
  | nil =>
    intro kv hkv
    simp only [updBy, List.mem_singleton] at hkv
    rw [hkv]
    exact hk
  | cons kv0 t ih =>
    intro kv hkv
    unfold updBy at hkv
    split at hkv
    · rcases List.mem_cons.mp hkv with heq | hmem
      · rw [heq]
        exact hk
      · exact hm kv (List.mem_cons_of_mem _ hmem)
    · rcases List.mem_cons.mp hkv with heq | hmem
      · rw [heq]
        exact hm kv0 (List.mem_cons_self _ _)
      · exact ih (fun kv2 h2 => hm kv2 (List.mem_cons_of_mem _ h2)) kv hmem

/-- Dict deletion preserves a property of all stored keys. -/
theorem delBy_key_prop {κ β : Type} (P : κ → Prop) (eq : κ → κ → Bool) (k : κ)
    (m : List (κ × β)) (hm : ∀ kv ∈ m, P kv.1) :
    ∀ kv ∈ delBy eq k m, P kv.1 := by
  induction m with
  | nil => intro kv hkv; simp [delBy] at hkv
  | cons kv0 t ih =>
    intro kv hkv
    unfold delBy at hkv
    split at hkv
    · exact hm kv (List.mem_cons_of_mem _ hkv)
    · rcases List.mem_cons.mp hkv with heq | hmem
      · rw [heq]
        exact hm kv0 (List.mem_cons_self _ _)
      · exact ih (fun kv2 h2 => hm kv2 (List.mem_cons_of_mem _ h2)) kv hmem

/-- A successful lookup returns a value with any property all stored
values share. -/
theorem lookupBy_val_prop {κ β : Type} (P : β → Prop) (eq : κ → κ → Bool) (k : κ)
    (m : List (κ × β)) (hm : ∀ kv ∈ m, P kv.2) (v : β)
    (h : lookupBy eq k m = some v) : P v := by
  induction m with
  | nil => exact absurd h (by simp [lookupBy])
  | cons kv0 t ih =>
    unfold lookupBy at h
    split at h
    · rw [← Option.some.inj h]
      exact hm kv0 (List.mem_cons_self _ _)
    · exact ih (fun kv2 h2 => hm kv2 (List.mem_cons_of_mem _ h2)) h

/-- One closure-expansion step keeps the accumulated sequence unchanged and
the queue and parent-follow dictionary sentinel-free. -/
theorem closStep_inv (g : PyGrammar) (n : Item) (pfn : List Str) (r0 : List Item)
    (hpfn : str "$$" ∉ pfn) (st : ClosSt) (prod : List Str)
    (h : st.ret = r0 ∧ ddFreeItems st.q ∧ (∀ kv ∈ st.pf, str "$$" ∉ kv.2)) :
    (closStep g n pfn st prod).ret = r0 ∧ ddFreeItems (closStep g n pfn st prod).q ∧
      (∀ kv ∈ (closStep g n pfn st prod).pf, str "$$" ∉ kv.2) := by
  obtain ⟨h1, h2, h3⟩ := h
  have hq2 : ddFreeItems (st.q ++ [(⟨currentSym n, prod, pfn, 0⟩ : Item)]) := by
    intro it hit
    rcases List.mem_append.mp hit with hq | hsing
    · exact h2 it hq
    · rw [List.mem_singleton.mp hsing]
      exact hpfn
  unfold closStep
  cases lookupBy (fun a b => decide (a = b)) prod st.buf with
  | some l =>
    refine ⟨h1, hq2, ?_⟩
    show ∀ kv ∈ updBy itemBEq ⟨currentSym n, prod, pfn, 0⟩ (substSentinel l pfn) st.pf,
      str "$$" ∉ kv.2
    exact updBy_val_prop (fun v => str "$$" ∉ v) itemBEq _ _ st.pf h3
      (substSentinel_ddfree l pfn hpfn)
  | none =>
    refine ⟨h1, hq2, ?_⟩
    show ∀ kv ∈ updBy itemBEq ⟨currentSym n, prod, pfn, 0⟩
        (substSentinel (lookaheadFn prod 0 g) pfn) st.pf, str "$$" ∉ kv.2
    exact updBy_val_prop (fun v => str "$$" ∉ v) itemBEq _ _ st.pf h3
      (substSentinel_ddfree _ pfn hpfn)

/-- The closure expansion of one item keeps the accumulated sequence
unchanged and the queue and parent-follow dictionary sentinel-free. -/
theorem closExpand_inv (g : PyGrammar) (n : Item) (pfn : List Str) (r0 : List Item)
    (hpfn : str "$$" ∉ pfn) (st : ClosSt)
    (h : st.ret = r0 ∧ ddFreeItems st.q ∧ (∀ kv ∈ st.pf, str "$$" ∉ kv.2)) :
    (closExpand g n pfn st).ret = r0 ∧ ddFreeItems (closExpand g n pfn st).q ∧
      (∀ kv ∈ (closExpand g n pfn st).pf, str "$$" ∉ kv.2) := by
  unfold closExpand
  exact foldl_preserves (closStep g n pfn)
    (fun a x ha _ => closStep_inv g n pfn r0 hpfn a x ha)
    (gLookup g (currentSym n)) st h (fun _ _ => trivial)

/-- The closure loop only produces items with sentinel-free follow sets,
provided the state starts that way. -/
theorem closLoop_ddfree (g : PyGrammar) (fuel : Nat) :
    ∀ st : ClosSt, ddFreeItems st.ret → ddFreeItems st.q →
      (∀ kv ∈ st.pf, str "$$" ∉ kv.2) → ddFreeItems (closLoop g fuel st) := by
  induction fuel with
  | zero => exact fun st h1 _ _ => h1
  | succ m ih =>
    rintro ⟨ret, q, pf, buf⟩ h1 h2 h3
    dsimp only at h1 h2 h3
    cases q with
    | nil => exact h1
    | cons n qrest =>
      have hn : str "$$" ∉ n.follow := h2 n (List.mem_cons_self _ _)
      have h2q : ddFreeItems qrest := fun it hit => h2 it (List.mem_cons_of_mem _ hit)
      have h1a : ddFreeItems (ret ++ [n]) := by
        intro it hit
        rcases List.mem_append.mp hit with hr | hs
        · exact h1 it hr
        · rw [List.mem_singleton.mp hs]
          exact hn
      unfold closLoop
      by_cases hm : memItem n ret = true
      · rw [if_pos hm]
        exact ih ⟨ret, qrest, pf, buf⟩ h1 h2q h3
      · rw [if_neg hm]
        by_cases hred : isReduce n = true
        · rw [if_pos hred]
          exact ih ⟨ret ++ [n], qrest, pf, buf⟩ h1a h2q h3
        · rw [if_neg hred]
          by_cases hnt : currentSym n ∈ nonterms g
          · rw [if_pos hnt]
            have hpfn : str "$$" ∉ (lookupBy itemBEq n pf).getD [] := by
              cases hl : lookupBy itemBEq n pf with
              | none => simp
              | some v => exact lookupBy_val_prop (fun v => str "$$" ∉ v) itemBEq n pf h3 v hl
            have hinv := closExpand_inv g n _ (ret ++ [n]) hpfn
              ⟨ret ++ [n], qrest, pf, buf⟩ ⟨rfl, h2q, h3⟩
            refine ih _ ?_ hinv.2.1 hinv.2.2
            rw [hinv.1]
            exact h1a
          · rw [if_neg hnt]
            exact ih ⟨ret ++ [n], qrest, pf, buf⟩ h1a h2q h3

/-- An item closure contains only sentinel-free follow sets when the base
item's follow set is sentinel-free. -/
theorem closure_ddfree (it : Item) (g : PyGrammar) (fuel : Nat)
    (h : str "$$" ∉ it.follow) : ddFreeItems (closure it g fuel) := by
  unfold closure
  apply closLoop_ddfree
  · intro x hx
    simp at hx
  · intro x hx
    rw [List.mem_singleton.mp hx]
    exact h
  · intro kv hkv
    rw [List.mem_singleton.mp hkv]
    exact substSentinel_ddfree _ _ h

/-- The reduce/reduce branch preserves sentinel-free reduce keys. -/
theorem genReduceRR_key (resolver : Item → Item → Item) (item : Item) (c : Str)
    (red : List (Str × Item)) (hc : c ≠ str "$$")
    (h : ∀ kv ∈ red, kv.1 ≠ str "$$") :
    ∀ kv ∈ genReduceRR resolver item c red, kv.1 ≠ str "$$" := by
  unfold genReduceRR
  split
  · split
    · exact updBy_key_prop (fun k => k ≠ str "$$") streq c _ red h hc
    · exact h
  · exact h

/-- The shift/reduce branch preserves sentinel-free reduce keys. -/
theorem genReduceSR_key (resolver : Item → Item → Item) (item : Item) (c : Str)
    (sh : List (Str × (Nat × Item))) (red : List (Str × Item)) (hc : c ≠ str "$$")
    (h : ∀ kv ∈ red, kv.1 ≠ str "$$") :
    ∀ kv ∈ (genReduceSR resolver item c sh red).2, kv.1 ≠ str "$$" := by
  unfold genReduceSR
  split
  · split
    · exact updBy_key_prop (fun k => k ≠ str "$$") streq c item red h hc
    · exact h
  · exact h

/-- Handling one lookahead character of a reduce item preserves
sentinel-free reduce keys, provided the character is not the sentinel. -/
theorem genReduceChar_key (resolver : Item → Item → Item) (item : Item) (tb : CurTabs)
    (c : Str) (hc : c ≠ str "$$") (h : ∀ kv ∈ tb.reduceT, kv.1 ≠ str "$$") :
    ∀ kv ∈ (genReduceChar resolver item tb c).reduceT, kv.1 ≠ str "$$" := by
  show ∀ kv ∈ updBy streq c item
      (genReduceSR resolver item c tb.shiftT (genReduceRR resolver item c tb.reduceT)).2,
    kv.1 ≠ str "$$"
  exact updBy_key_prop (fun k => k ≠ str "$$") streq c item _
    (genReduceSR_key resolver item c tb.shiftT _ hc
      (genReduceRR_key resolver item c tb.reduceT hc h)) hc

/-- Installing the goto target preserves the state invariant and the
reduce keys, provided the target is sentinel-free. -/
theorem genGotoFinish_inv (c : Str) (item : Item) (st : GenSt) (target : List Item)
    (tb : CurTabs) (hst : ∀ s ∈ st.states, stateNoSentinel s)
    (htarget : ddFreeItems target) (htb : ∀ kv ∈ tb.reduceT, kv.1 ≠ str "$$") :
    (∀ s ∈ (genGotoFinish c item st target tb).1.states, stateNoSentinel s) ∧
    (∀ kv ∈ (genGotoFinish c item st target tb).2.reduceT, kv.1 ≠ str "$$") := by
  unfold genGotoFinish
  cases lookupBy itemsBEq target st.hit with
  | some j => exact ⟨hst, htb⟩
  | none =>
    refine ⟨fun s hs => ?_, htb⟩
    rcases List.mem_append.mp hs with hmem | hsing
    · exact hst s hmem
    · rw [List.mem_singleton.mp hsing]
      exact ⟨htarget, fun kv hkv => absurd hkv (List.not_mem_nil kv)⟩

/-- The items of any state of the collection are sentinel-free. -/
theorem states_items_ddfree (st : GenSt) (hst : ∀ s ∈ st.states, stateNoSentinel s)
    (i : Nat) : ddFreeItems ((st.states.get? i).getD emptyItemSet).items := by
  cases hg : st.states.get? i with
  | none => intro it hit; simp [emptyItemSet] at hit
  | some s => exact (hst s (List.get?_mem hg)).1

/-- The goto computation preserves the state invariant and the reduce
keys. -/
theorem genGoto_inv (g : PyGrammar) (cfuel : Nat) (item : Item) (st : GenSt) (tb : CurTabs)
    (hst : ∀ s ∈ st.states, stateNoSentinel s)
    (htb : ∀ kv ∈ tb.reduceT, kv.1 ≠ str "$$")
    (hitem : str "$$" ∉ item.follow) :
    (∀ s ∈ (genGoto g cfuel item st tb).1.states, stateNoSentinel s) ∧
    (∀ kv ∈ (genGoto g cfuel item st tb).2.reduceT, kv.1 ≠ str "$$") := by
  have htarget : ddFreeItems (closure (advanced item) g cfuel) :=
    closure_ddfree (advanced item) g cfuel hitem
  unfold genGoto
  cases alookup (currentSym item) tb.shiftT with
  | none => exact genGotoFinish_inv _ item st _ tb hst htarget htb
  | some sv =>
    have hmerged : ddFreeItems
        (mergeInto ((st.states.get? sv.1).getD emptyItemSet).items
          (closure (advanced item) g cfuel)) := by
      unfold mergeInto
      refine foldl_preserves _ (fun acc x ha hx => ?_) _ _
        (states_items_ddfree st hst sv.1) htarget
      by_cases hmx : memItem x acc = true
      · rw [if_pos hmx]
        exact ha
      · rw [if_neg hmx]
        intro it hit
        rcases List.mem_append.mp hit with h1 | h2
        · exact ha it h1
        · rw [List.mem_singleton.mp h2]
          exact hx
    refine genGotoFinish_inv _ item _ _ tb (fun s hs => ?_) hmerged htb
    rcases List.mem_or_eq_of_mem_set hs with hmem | heq
    · exact hst s hmem
    · rw [heq]
      refine ⟨hmerged, fun kv hkv => ?_⟩
      cases hg : st.states.get? sv.1 with
      | none =>
        rw [hg] at hkv
        simp [emptyItemSet] at hkv
      | some s2 =>
        rw [hg] at hkv
        exact (hst s2 (List.get?_mem hg)).2 kv hkv

/-- Processing one non-reduce item preserves the state invariant and the
reduce keys. -/
theorem genShiftItem_inv (g : PyGrammar) (resolver : Item → Item → Item) (cfuel : Nat)
    (item : Item) (st : GenSt) (tb : CurTabs)
    (hst : ∀ s ∈ st.states, stateNoSentinel s)
    (htb : ∀ kv ∈ tb.reduceT, kv.1 ≠ str "$$")
    (hitem : str "$$" ∉ item.follow) :
    (∀ s ∈ (genShiftItem g resolver cfuel item st tb).1.states, stateNoSentinel s) ∧
    (∀ kv ∈ (genShiftItem g resolver cfuel item st tb).2.reduceT, kv.1 ≠ str "$$") := by
  unfold genShiftItem
  by_cases hskip : genSkip resolver item tb.reduceT = true
  · rw [if_pos hskip]
    exact ⟨hst, htb⟩
  · rw [if_neg hskip]
    have hred : ∀ kv ∈ genRedAfterSkip resolver item tb.reduceT, kv.1 ≠ str "$$" := by
      unfold genRedAfterSkip
      split
      · split
        · exact htb
        · exact delBy_key_prop (fun k => k ≠ str "$$") streq _ tb.reduceT htb
      · exact htb
    exact genGoto_inv g cfuel item st _ hst hred hitem

/-- Processing a sentinel-free item snapshot preserves the state invariant
and the reduce keys. -/
theorem genItems_inv (g : PyGrammar) (resolver : Item → Item → Item) (cfuel : Nat) :
    ∀ (snapshot : List Item) (st : GenSt) (tb : CurTabs),
      (∀ s ∈ st.states, stateNoSentinel s) → (∀ kv ∈ tb.reduceT, kv.1 ≠ str "$$") →
      ddFreeItems snapshot →
      (∀ s ∈ (genItems g resolver cfuel snapshot st tb).1.states, stateNoSentinel s) ∧
      (∀ kv ∈ (genItems g resolver cfuel snapshot st tb).2.reduceT, kv.1 ≠ str "$$") := by
  intro snapshot
  induction snapshot with
  | nil => exact fun st tb h1 h2 _ => ⟨h1, h2⟩
  | cons item rest ih =>
    intro st tb h1 h2 hsnap
    have hitem : str "$$" ∉ item.follow := hsnap item (List.mem_cons_self _ _)
    have hrest : ddFreeItems rest := fun it hit => hsnap it (List.mem_cons_of_mem _ hit)
    unfold genItems
    by_cases hredi : isReduce item = true
    · rw [if_pos hredi]
      refine ih st _ h1 ?_ hrest
      refine foldl_preserves (genReduceChar resolver item)
        (fun a x ha hx => genReduceChar_key resolver item a x hx ha) item.follow tb h2 ?_
      intro c hc hceq
      exact hitem (hceq ▸ hc)
    · rw [if_neg hredi]
      have hg := genShiftItem_inv g resolver cfuel item st tb h1 h2 hitem
      exact ih _ _ hg.1 hg.2 hrest

/-- The outer generation loop preserves the state invariant. -/
theorem genLoop_inv (g : PyGrammar) (resolver : Item → Item → Item) (cfuel : Nat) :
    ∀ (fuel i : Nat) (st : GenSt), (∀ s ∈ st.states, stateNoSentinel s) →
      ∀ s ∈ genLoop g resolver cfuel fuel i st, stateNoSentinel s := by
  intro fuel
  induction fuel with
  | zero => exact fun i st h => h
  | succ m ih =>
    intro i st h
    unfold genLoop
    by_cases hlt : i < st.states.length
    · rw [if_pos hlt]
      have hsnap := states_items_ddfree st h i
      have hres := genItems_inv g resolver cfuel _ st ⟨[], []⟩ h
        (fun kv hkv => absurd hkv (List.not_mem_nil kv)) hsnap
      refine ih (i + 1) _ fun s hs => ?_
      rcases List.mem_or_eq_of_mem_set hs with hmem | heq
      · exact hres.1 s hmem
      · rw [heq]
        exact ⟨states_items_ddfree _ hres.1 i, hres.2⟩
    · rw [if_neg hlt]
      exact h

/-- C7: for every canonical collection built by `ItemSet.generate` from a
base item sequence whose follow sets do not contain `$$`, with any grammar
and any (total) resolver, the sentinel `$$` never appears in any item's
follow set of any state nor as a key of any state's reduce table: closure
always replaces `$$` with the enclosing item's follow set before storing. -/
theorem c7_sentinel_never_escapes (g : PyGrammar) (resolver : Item → Item → Item)
    (base : List Item) (cfuel fuel : Nat) (hbase : ddFreeItems base) :
    ∀ s ∈ generate base g resolver cfuel fuel, stateNoSentinel s := by
  unfold generate
  refine genLoop_inv g resolver cfuel fuel 0 _ fun s hs => ?_
  rw [List.mem_singleton.mp hs]
  exact ⟨hbase, fun kv hkv => absurd hkv (List.not_mem_nil kv)⟩

/-- Witness for C7 at the concrete grammar `gC2` with `resolve_shift`: the
base closure is sentinel-free, so every generated state is. -/
theorem c7_sentinel_never_escapes_witness :
    stateNoSentinel ((generate (closure ⟨str "Z", [str "S"], [str "$"], 0⟩ gC2 30)
      gC2 resolveShift 30 40).getD 0 emptyItemSet) :=
  c7_sentinel_never_escapes gC2 resolveShift
    (closure ⟨str "Z", [str "S"], [str "$"], 0⟩ gC2 30) 30 40
    (by unfold ddFreeItems; decide) _ (by decide)

/-- The literal-terminal loop of the lexer: the result is the accumulator
or a literal candidate, its lexeme length never decreases, and it is at
least the length of every literal candidate. -/
theorem pickLit_spec (line : Str) :
    ∀ (terms : List Str) (acc : Str × Str),
      (pickLit line terms acc = acc ∨
        ∃ s ∈ terms, s.isPrefixOf line = true ∧ pickLit line terms acc = (s, s)) ∧
      acc.2.length ≤ (pickLit line terms acc).2.length ∧
      (∀ s ∈ terms, s.isPrefixOf line = true → s.length ≤ (pickLit line terms acc).2.length) := by
  intro terms
  induction terms with
  | nil =>
    intro acc
    refine ⟨Or.inl rfl, le_refl _, ?_⟩
    intro s hs
    simp at hs
  | cons t ts ih =>
    intro acc
    by_cases hpre : t.isPrefixOf line = true
    · by_cases hlen : acc.2.length < t.length
      · have hstep : pickLit line (t :: ts) acc = pickLit line ts (t, t) := by
          show pickLit line ts (if t.isPrefixOf line = true then
            (if acc.2.length < t.length then (t, t) else acc) else acc) = _
          rw [if_pos hpre, if_pos hlen]
        rw [hstep]
        obtain ⟨hcand, hmono, hmax⟩ := ih (t, t)
        refine ⟨?_, le_trans (le_of_lt hlen) hmono, ?_⟩
        · rcases hcand with heq | ⟨s, hsmem, hsp, heq⟩
          · exact Or.inr ⟨t, List.mem_cons_self _ _, hpre, heq⟩
          · exact Or.inr ⟨s, List.mem_cons_of_mem _ hsmem, hsp, heq⟩
        · intro s hs hsp
          rcases List.mem_cons.mp hs with rfl | hsmem
          · exact hmono
          · exact hmax s hsmem hsp
      · have hstep : pickLit line (t :: ts) acc = pickLit line ts acc := by
          show pickLit line ts (if t.isPrefixOf line = true then
            (if acc.2.length < t.length then (t, t) else acc) else acc) = _
          rw [if_pos hpre, if_neg hlen]
        rw [hstep]
        obtain ⟨hcand, hmono, hmax⟩ := ih acc
        refine ⟨?_, hmono, ?_⟩
        · rcases hcand with heq | ⟨s, hsmem, hsp, heq⟩
          · exact Or.inl heq
          · exact Or.inr ⟨s, List.mem_cons_of_mem _ hsmem, hsp, heq⟩
        · intro s hs hsp
          rcases List.mem_cons.mp hs with rfl | hsmem
          · exact le_trans (Nat.le_of_not_lt hlen) hmono
          · exact hmax s hsmem hsp
    · have hstep : pickLit line (t :: ts) acc = pickLit line ts acc := by
        show pickLit line ts (if t.isPrefixOf line = true then
          (if acc.2.length < t.length then (t, t) else acc) else acc) = _
        rw [if_neg hpre]
      rw [hstep]
      obtain ⟨hcand, hmono, hmax⟩ := ih acc
      refine ⟨?_, hmono, ?_⟩
      · rcases hcand with heq | ⟨s, hsmem, hsp, heq⟩
        · exact Or.inl heq
        · exact Or.inr ⟨s, List.mem_cons_of_mem _ hsmem, hsp, heq⟩
      · intro s hs hsp
        rcases List.mem_cons.mp hs with rfl | hsmem
        · exact absurd hsp hpre
        · exact hmax s hsmem hsp

/-- The regex loop of the lexer: the result is the accumulator or a
strictly longer regex match, its lexeme length never decreases, and it is
at least the length of every regex match. -/
theorem pickRe_spec (line : Str) :
    ∀ (spcl : List SpclRule) (acc : Str × Str),
      (pickRe line spcl acc = acc ∨
        ∃ nm ∈ spcl, ∃ r, nm.2 line = some r ∧ pickRe line spcl acc = (nm.1, r) ∧
          acc.2.length < r.length) ∧
      acc.2.length ≤ (pickRe line spcl acc).2.length ∧
      (∀ nm ∈ spcl, ∀ r, nm.2 line = some r → r.length ≤ (pickRe line spcl acc).2.length) := by
  intro spcl
  induction spcl with
  | nil =>
    intro acc
    refine ⟨Or.inl rfl, le_refl _, ?_⟩
    intro nm hnm
    simp at hnm
  | cons nm0 rest ih =>
    intro acc
    cases hm : nm0.2 line with
    | none =>
      have hstep : pickRe line (nm0 :: rest) acc = pickRe line rest acc := by
        show pickRe line rest (match nm0.2 line with
          | some r => if acc.2.length < r.length then (nm0.1, r) else acc
          | none => acc) = _
        rw [hm]
      rw [hstep]
      obtain ⟨hcand, hmono, hmax⟩ := ih acc
      refine ⟨?_, hmono, ?_⟩
      · rcases hcand with heq | ⟨nm, hmem, r, hr, heq, hlt⟩
        · exact Or.inl heq
        · exact Or.inr ⟨nm, List.mem_cons_of_mem _ hmem, r, hr, heq, hlt⟩
      · intro nm hmem r hr
        rcases List.mem_cons.mp hmem with rfl | hmem2
        · rw [hm] at hr
          exact absurd hr (by simp)
        · exact hmax nm hmem2 r hr
    | some r0 =>
      by_cases hlen : acc.2.length < r0.length
      · have hstep : pickRe line (nm0 :: rest) acc = pickRe line rest (nm0.1, r0) := by
          show pickRe line rest (match nm0.2 line with
            | some r => if acc.2.length < r.length then (nm0.1, r) else acc
            | none => acc) = _
          rw [hm]
          show pickRe line rest (if acc.2.length < r0.length then (nm0.1, r0) else acc) = _
          rw [if_pos hlen]
        rw [hstep]
        obtain ⟨hcand, hmono, hmax⟩ := ih (nm0.1, r0)
        refine ⟨?_, le_trans (le_of_lt hlen) hmono, ?_⟩
        · rcases hcand with heq | ⟨nm, hmem, r, hr, heq, hlt⟩
          · exact Or.inr ⟨nm0, List.mem_cons_self _ _, r0, hm, heq, hlen⟩
          · exact Or.inr ⟨nm, List.mem_cons_of_mem _ hmem, r, hr, heq, lt_trans hlen hlt⟩
        · intro nm hmem r hr
          rcases List.mem_cons.mp hmem with rfl | hmem2
          · rw [hm] at hr
            rw [← Option.some.inj hr]
            exact hmono
          · exact hmax nm hmem2 r hr
      · have hstep : pickRe line (nm0 :: rest) acc = pickRe line rest acc := by
          show pickRe line rest (match nm0.2 line with
            | some r => if acc.2.length < r.length then (nm0.1, r) else acc
            | none => acc) = _
          rw [hm]
          show pickRe line rest (if acc.2.length < r0.length then (nm0.1, r0) else acc) = _
          rw [if_neg hlen]
        rw [hstep]
        obtain ⟨hcand, hmono, hmax⟩ := ih acc
        refine ⟨?_, hmono, ?_⟩
        · rcases hcand with heq | ⟨nm, hmem, r, hr, heq, hlt⟩
          · exact Or.inl heq
          · exact Or.inr ⟨nm, List.mem_cons_of_mem _ hmem, r, hr, heq, hlt⟩
        · intro nm hmem r hr
          rcases List.mem_cons.mp hmem with rfl | hmem2
          · rw [hm] at hr
            rw [← Option.some.inj hr]
            exact le_trans (Nat.le_of_not_lt hlen) hmono
          · exact hmax nm hmem2 r hr

/-- A non-erroring token selection satisfies the longest-match contract. -/
theorem pickTok_ok (g : PyGrammar) (spcl : List SpclRule) (line : Str)
    (h : (pickTok g spcl line).1 ≠ []) : PickOk g spcl line (pickTok g spcl line) := by
  obtain ⟨hLcand, hLmono, hLmax⟩ := pickLit_spec line (lexTerms g spcl) ([], [])
  obtain ⟨hRcand, hRmono, hRmax⟩ :=
    pickRe_spec line spcl (pickLit line (lexTerms g spcl) ([], []))
  refine ⟨?_, ?_, ?_, ?_⟩
  · rcases hRcand with heq | ⟨nm, hmem, r, hr, heq, _⟩
    · rcases hLcand with heq2 | ⟨s, hsmem, hsp, heq2⟩
      · exfalso
        apply h
        show (pickRe line spcl (pickLit line (lexTerms g spcl) ([], []))).1 = []
        rw [heq, heq2]
      · refine Or.inl ⟨s, hsmem, hsp, ?_⟩
        show pickRe line spcl (pickLit line (lexTerms g spcl) ([], [])) = (s, s)
        rw [heq, heq2]
    · refine Or.inr ⟨nm, hmem, ?_, ?_⟩
      · show nm.2 line = some (pickTok g spcl line).2
        have : (pickTok g spcl line) = (nm.1, r) := heq
        rw [this]
        exact hr
      · show (pickTok g spcl line).1 = nm.1
        have : (pickTok g spcl line) = (nm.1, r) := heq
        rw [this]
  · intro s hsmem hsp
    exact le_trans (hLmax s hsmem hsp) hRmono
  · exact hRmax
  · intro s hsmem hsp hslen
    rcases hRcand with heq | ⟨nm, hmem, r, hr, heq, hlt⟩
    · rcases hLcand with heq2 | ⟨s2, hs2mem, hs2p, heq2⟩
      · exfalso
        apply h
        show (pickRe line spcl (pickLit line (lexTerms g spcl) ([], []))).1 = []
        rw [heq, heq2]
      · have hres : pickTok g spcl line = (s2, s2) := by
          show pickRe line spcl (pickLit line (lexTerms g spcl) ([], [])) = (s2, s2)
          rw [heq, heq2]
        have hs2len : s2.length = s.length := by
          have := congrArg (fun p => p.2.length) hres
          simp at this
          rw [this] at hslen
          exact hslen.symm
        have hs2eq : s = s2 := by
          have hp1 : s <+: line := List.isPrefixOf_iff_prefix.mp hsp
          have hp2 : s2 <+: line := List.isPrefixOf_iff_prefix.mp hs2p
          exact (List.prefix_of_prefix_length_le hp1 hp2 (le_of_eq hs2len.symm)).eq_of_length
            hs2len.symm
        rw [hres, hs2eq]
    · exfalso
      have hres : pickTok g spcl line = (nm.1, r) := heq
      have hlt2 : (pickLit line (lexTerms g spcl) ([], [])).2.length < r.length := hlt
      have hle : s.length ≤ (pickLit line (lexTerms g spcl) ([], [])).2.length :=
        hLmax s hsmem hsp
      have : s.length < (pickTok g spcl line).2.length := by
        rw [hres]
        exact lt_of_le_of_lt hle hlt2
      rw [hslen] at this
      exact lt_irrefl _ this

/-- Every token the inner lexer loop appends satisfies the longest-match
contract at the line remainder where it was produced. -/
theorem lexLine_tokens (g : PyGrammar) (spcl : List SpclRule) :
    ∀ (fuel : Nat) (line : Str) (acc out : List (Str × Str)),
      lexLine g spcl fuel line acc = some out →
      ∀ tok ∈ out, tok ∈ acc ∨ ∃ rest : Str, PickOk g spcl rest tok := by
  intro fuel
  induction fuel with
  | zero =>
    intro line acc out h
    exact absurd h (by simp [lexLine])
  | succ n ih =>
    intro line acc out h
    cases line with
    | nil =>
      have hout : out = acc := (Option.some.inj h).symm
      intro tok htok
      exact Or.inl (hout ▸ htok)
    | cons c cs =>
      have heq : lexLine g spcl (n + 1) (c :: cs) acc =
          (if (pickTok g spcl (c :: cs)).1 = [] then none
           else lexLine g spcl n
             (pstrip ((c :: cs).drop (pickTok g spcl (c :: cs)).2.length))
             (acc ++ [pickTok g spcl (c :: cs)])) := rfl
      rw [heq] at h
      by_cases hz : (pickTok g spcl (c :: cs)).1 = []
      · rw [if_pos hz] at h
        exact absurd h (by simp)
      · rw [if_neg hz] at h
        intro tok htok
        rcases ih _ _ _ h tok htok with hacc | hrest
        · rcases List.mem_append.mp hacc with h1 | h2
          · exact Or.inl h1
          · refine Or.inr ⟨c :: cs, ?_⟩
            rw [List.mem_singleton.mp h2]
            exact pickTok_ok g spcl (c :: cs) hz
        · exact Or.inr hrest

/-- Every token `lex` emits satisfies the longest-match contract at the
remainder where it was produced. -/
theorem lexFn_tokens (g : PyGrammar) (spcl : List SpclRule) (fuel : Nat) :
    ∀ (lines : List Str) (acc out : List (Str × Str)),
      lexFn g spcl fuel lines acc = some out →
      ∀ tok ∈ out, tok ∈ acc ∨ ∃ rest : Str, PickOk g spcl rest tok := by
  intro lines
  induction lines with
  | nil =>
    intro acc out h tok htok
    have hout : out = acc := (Option.some.inj h).symm
    exact Or.inl (hout ▸ htok)
  | cons line rest ih =>
    intro acc out h tok htok
    cases hL : lexLine g spcl fuel (pstrip line) acc with
    | none =>
      exfalso
      have hnone : lexFn g spcl fuel (line :: rest) acc = none := by
        show (match lexLine g spcl fuel (pstrip line) acc with
          | none => none
          | some acc2 => lexFn g spcl fuel rest acc2) = none
        rw [hL]
      rw [hnone] at h
      exact Option.noConfusion h
    | some acc2 =>
      have heq : lexFn g spcl fuel (line :: rest) acc = lexFn g spcl fuel rest acc2 := by
        show (match lexLine g spcl fuel (pstrip line) acc with
          | none => none
          | some a => lexFn g spcl fuel rest a) = _
        rw [hL]
      rw [heq] at h
      rcases ih acc2 out h tok htok with hacc2 | hrest2
      · exact lexLine_tokens g spcl fuel (pstrip line) acc acc2 hL tok hacc2
      · exact Or.inr hrest2

/-- A successful inner-loop run appends a token segment chained to the
actual remainders starting at the given line. -/
theorem lexLine_chain (g : PyGrammar) (spcl : List SpclRule) :
    ∀ (fuel : Nat) (line : Str) (acc out : List (Str × Str)),
      lexLine g spcl fuel line acc = some out →
      ∃ suf, out = acc ++ suf ∧ lexChain g spcl line suf := by
  intro fuel
  induction fuel with
  | zero =>
    intro line acc out h
    exact absurd h (by simp [lexLine])
  | succ n ih =>
    intro line acc out h
    cases line with
    | nil =>
      have hout : out = acc := (Option.some.inj h).symm
      exact ⟨[], by rw [hout, List.append_nil], rfl⟩
    | cons c cs =>
      have heq : lexLine g spcl (n + 1) (c :: cs) acc =
          (if (pickTok g spcl (c :: cs)).1 = [] then none
           else lexLine g spcl n
             (pstrip ((c :: cs).drop (pickTok g spcl (c :: cs)).2.length))
             (acc ++ [pickTok g spcl (c :: cs)])) := rfl
      rw [heq] at h
      by_cases hz : (pickTok g spcl (c :: cs)).1 = []
      · rw [if_pos hz] at h
        exact absurd h (by simp)
      · rw [if_neg hz] at h
        obtain ⟨suf2, hout, hchain⟩ := ih _ _ _ h
        refine ⟨pickTok g spcl (c :: cs) :: suf2, by rw [hout]; simp, ?_⟩
        exact ⟨rfl, hz, pickTok_ok g spcl (c :: cs) hz, hchain⟩

/-- A successful `lex` run appends one chained token segment per input
line. -/
theorem lexFn_chain (g : PyGrammar) (spcl : List SpclRule) (fuel : Nat) :
    ∀ (lines : List Str) (acc out : List (Str × Str)),
      lexFn g spcl fuel lines acc = some out →
      ∃ suf, out = acc ++ suf ∧ lexLinesChain g spcl lines suf := by
  intro lines
  induction lines with
  | nil =>
    intro acc out h
    have hout : out = acc := (Option.some.inj h).symm
    exact ⟨[], by rw [hout, List.append_nil], rfl⟩
  | cons line rest ih =>
    intro acc out h
    cases hL : lexLine g spcl fuel (pstrip line) acc with
    | none =>
      exfalso
      have hnone : lexFn g spcl fuel (line :: rest) acc = none := by
        show (match lexLine g spcl fuel (pstrip line) acc with
          | none => none
          | some acc2 => lexFn g spcl fuel rest acc2) = none
        rw [hL]
      rw [hnone] at h
      exact Option.noConfusion h
    | some acc2 =>
      have heq : lexFn g spcl fuel (line :: rest) acc = lexFn g spcl fuel rest acc2 := by
        show (match lexLine g spcl fuel (pstrip line) acc with
          | none => none
          | some a => lexFn g spcl fuel rest a) = _
        rw [hL]
      rw [heq] at h
      obtain ⟨t1, hacc2, hch1⟩ := lexLine_chain g spcl fuel (pstrip line) acc acc2 hL
      obtain ⟨t2, hout, hch2⟩ := ih acc2 out h
      refine ⟨t1 ++ t2, by rw [hout, hacc2, List.append_assoc], ?_⟩
      exact ⟨t1, t2, rfl, hch1, hch2⟩

/-- C9: every token `lex` emits is the longest match at the actual current
position: the emitted tokens decompose line by line into segments chained
along the actual remainders (each token is the pick at its remainder,
satisfies the longest-match contract there — it is a candidate, no literal
or regex candidate at that remainder is strictly longer, and a literal
candidate of equal length is what is emitted — and the remainder then
advances past exactly the emitted lexeme); moreover the literal terminals
checked are the grammar's terminals minus the regex-mapped names, so a
regex-backed name that also appears literally is matched only via its
regex. -/
theorem c9_lex_longest_match (g : PyGrammar) (spcl : List SpclRule) (fuel : Nat)
    (lines : List Str) (out : List (Str × Str))
    (h : lexFn g spcl fuel lines [] = some out) :
    (∀ s ∈ lexTerms g spcl, s ∉ spcl.map Prod.fst) ∧
    lexLinesChain g spcl lines out := by
  constructor
  · intro s hs
    exact ((mem_sdiff_iff (terminals g) (spcl.map Prod.fst) s).mp hs).2
  · obtain ⟨suf, hout, hch⟩ := lexFn_chain g spcl fuel lines [] out h
    rw [List.nil_append] at hout
    rw [hout]
    exact hch

/-- Witness for C9 at the repository's lexer test: grammar
`S -> abc | abcd`, no regex rules, input `abcd abc`. -/
theorem c9_lex_longest_match_witness :
    (∀ s ∈ lexTerms gC9 [], s ∉ ([] : List SpclRule).map Prod.fst) ∧
    lexLinesChain gC9 [] [str "abcd abc"]
      [(str "abcd", str "abcd"), (str "abc", str "abc")] :=
  c9_lex_longest_match gC9 [] 50 [str "abcd abc"]
    [(str "abcd", str "abcd"), (str "abc", str "abc")] rfl

/-- C10 counterexample: the claim states the round trip holds for every
grammar whose symbols avoid whitespace, quotes, backslashes, `|` and `->`.
The grammar with the single production `S -> ("a", "#")` satisfies those
conditions, but `tokenize` drops the `#` token from the two-token
alternative when re-parsing `str(g)`, so the round-tripped grammar is not
equal to the original. -/
theorem c10_counterexample_hash_production :
    c10SymbolsOk gBad = true ∧
    fromRules (splitChar nl (gstr gBad)) = some gBadRt ∧
    gramEq gBadRt gBad = false := by
  exact ⟨rfl, rfl, rfl⟩

/- Machinery for the round-trip theorem (C10). -/

/-- The separator folds of `__str__` expand to `preJoin`. -/
theorem foldl_sep_eq (sep : Str) (f : α → Str) :
    ∀ (l : List α) (a : Str), l.foldl (fun x y => x ++ sep ++ f y) a = a ++ preJoin sep f l := by
  intro l
  induction l with
  | nil => intro a; simp [preJoin]
  | cons x t ih =>
    intro a
    rw [List.foldl_cons, ih]
    simp [preJoin, List.append_assoc]

/-- Characters of a clean symbol. -/
theorem symClean_char (s : Str) (h : symClean s = true) :
    ∀ c ∈ s, c ≠ spc ∧ c ≠ nl ∧ c ≠ qch ∧ c ≠ bsl ∧ c ≠ pipeCh := by
  simp only [symClean, Bool.and_eq_true, List.all_eq_true, decide_eq_true_eq] at h
  exact h.1

/-- A clean symbol has no `->` pair. -/
theorem symClean_arrow (s : Str) (h : symClean s = true) : hasArrow s = false := by
  simp only [symClean, Bool.and_eq_true] at h
  simpa using h.2

/-- Dropping whitespace does nothing when the head is not whitespace. -/
theorem dropWhile_wsp_of_head (s : Str)
    (h : ∀ c, s.head? = some c → ¬(c = spc ∨ c = nl)) :
    s.dropWhile (fun c => c = spc ∨ c = nl) = s := by
  cases s with
  | nil => rfl
  | cons c t =>
    rw [List.dropWhile_cons]
    simp [h c rfl]

/-- Strip is the identity on strings with clean first and last character. -/
theorem pstrip_of_ends (s : Str)
    (hh : ∀ c, s.head? = some c → ¬(c = spc ∨ c = nl))
    (hl : ∀ c, s.getLast? = some c → ¬(c = spc ∨ c = nl)) : pstrip s = s := by
  unfold pstrip
  rw [dropWhile_wsp_of_head s hh]
  rw [dropWhile_wsp_of_head s.reverse (by
    intro c hc
    apply hl
    rwa [List.head?_reverse] at hc)]
  exact List.reverse_reverse s

/-- Strip removes exactly the optional padding spaces around a string with
clean first and last character. -/
theorem pstrip_pad (s : Str) (lead trail : Bool) (hs : s ≠ [])
    (hh : ∀ c, s.head? = some c → ¬(c = spc ∨ c = nl))
    (hl : ∀ c, s.getLast? = some c → ¬(c = spc ∨ c = nl)) :
    pstrip ((if lead then [spc] else []) ++ s ++ (if trail then [spc] else [])) = s := by
  have hwsp : (decide (spc = spc ∨ spc = nl)) = true := by decide
  have hdfront : ∀ (x : Str),
      (spc :: x).dropWhile (fun c => c = spc ∨ c = nl) =
        x.dropWhile (fun c => c = spc ∨ c = nl) := by
    intro x
    rw [List.dropWhile_cons]
    simp
  have hcore : ∀ (x : Str), x = s ++ (if trail then [spc] else []) →
      pstrip x = s → pstrip ((if lead then [spc] else []) ++ x) = s := by
    intro x hx hpx
    cases lead with
    | false => simpa using hpx
    | true =>
      show pstrip (spc :: x) = s
      unfold pstrip at hpx ⊢
      rw [hdfront]
      exact hpx
  rw [List.append_assoc]
  apply hcore _ rfl
  cases trail with
  | false =>
    rw [if_neg (by simp), List.append_nil]
    exact pstrip_of_ends s hh hl
  | true =>
    rw [if_pos rfl]
    unfold pstrip
    rw [dropWhile_wsp_of_head (s ++ [spc]) (by
      intro c hc
      apply hh
      cases s with
      | nil => exact absurd rfl hs
      | cons a t => simpa using hc)]
    rw [List.reverse_append]
    show ((spc :: s.reverse).dropWhile _).reverse = s
    rw [hdfront]
    rw [dropWhile_wsp_of_head s.reverse (by
      intro c hc
      apply hl
      rwa [List.head?_reverse] at hc)]
    exact List.reverse_reverse s

/-- The arrow scan of a cons. -/
theorem hasArrow_cons_of (c : Char) (s : Str) (hc : c ≠ '-') (hs : hasArrow s = false) :
    hasArrow (c :: s) = false := by
  cases s with
  | nil => rfl
  | cons d t =>
    show ((decide (c = '-') && decide (d = '>')) || hasArrow (d :: t)) = false
    simp [hc, hs]

/-- The two-character unfolding of the arrow splitter. -/
theorem splitArrowAux_cons2 (acc : Str) (c d : Char) (ds : Str) :
    splitArrowAux acc (c :: d :: ds) =
      if c = '-' ∧ d = '>' then acc.reverse :: splitArrowAux [] ds
      else splitArrowAux (c :: acc) (d :: ds) := rfl

/-- The arrow splitter passes over an arrow-free segment, provided the
next character cannot complete a `->` pair across the boundary. -/
theorem splitArrowAux_skip :
    ∀ (s : Str), hasArrow s = false →
    ∀ (acc rest : Str), (∀ d, rest.head? = some d → d ≠ '>') →
    splitArrowAux acc (s ++ rest) = splitArrowAux (s.reverse ++ acc) rest := by
  intro s
  induction s with
  | nil =>
    intro _ acc rest _
    simp
  | cons c cs ih =>
    intro h acc rest hhead
    cases cs with
    | nil =>
      cases rest with
      | nil => simp [splitArrowAux]
      | cons d ds =>
        show splitArrowAux acc (c :: d :: ds) = _
        rw [splitArrowAux_cons2]
        rw [if_neg (by
          rintro ⟨-, hd⟩
          exact hhead d rfl hd)]
        simp [splitArrowAux]
    | cons c2 cs2 =>
      have hsplit : (decide (c = '-') && decide (c2 = '>')) = false ∧
          hasArrow (c2 :: cs2) = false := by
        have hu : hasArrow (c :: c2 :: cs2) =
            ((decide (c = '-') && decide (c2 = '>')) || hasArrow (c2 :: cs2)) := rfl
        rw [hu] at h
        exact Bool.or_eq_false_iff.mp h
      show splitArrowAux acc (c :: (c2 :: cs2 ++ rest)) = _
      rw [show (c :: (c2 :: cs2 ++ rest)) = c :: c2 :: (cs2 ++ rest) from rfl]
      rw [splitArrowAux_cons2]
      rw [if_neg (by
        rintro ⟨h1, h2⟩
        have : (decide (c = '-') && decide (c2 = '>')) = true := by simp [h1, h2]
        rw [hsplit.1] at this
        exact Bool.false_ne_true this)]
      rw [show (c2 :: (cs2 ++ rest)) = (c2 :: cs2) ++ rest from rfl]
      rw [ih hsplit.2 (c :: acc) rest hhead]
      simp [List.append_assoc]

/-- The arrow splitter returns an arrow-free string whole. -/
theorem splitArrowAux_clean (s : Str) (hs : hasArrow s = false) (acc : Str) :
    splitArrowAux acc s = [acc.reverse ++ s] := by
  have h := splitArrowAux_skip s hs acc [] (by intro d hd; simp at hd)
  rw [List.append_nil] at h
  rw [h]
  show [(s.reverse ++ acc).reverse] = _
  simp

/-- Splitting one rule line on `->` yields the symbol and the body, each
with one padding space. -/
theorem splitArrow_line (nt body : Str) (hnt : hasArrow nt = false)
    (hbody : hasArrow body = false) :
    splitArrow (nt ++ str " -> " ++ body) = [nt ++ [spc], spc :: body] := by
  unfold splitArrow
  have harr : str " -> " = [spc, '-', '>', spc] := by decide
  rw [List.append_assoc, harr]
  rw [show ([spc, '-', '>', spc] ++ body) = spc :: '-' :: '>' :: spc :: body from rfl]
  rw [splitArrowAux_skip nt hnt [] _ (by
    intro d hd
    simp at hd
    rw [← hd]
    decide)]
  rw [show (spc :: '-' :: '>' :: spc :: body) = spc :: '-' :: ('>' :: spc :: body) from rfl]
  rw [splitArrowAux_cons2, if_neg (by decide)]
  rw [show ('-' :: '>' :: spc :: body) = '-' :: '>' :: (spc :: body) from rfl]
  rw [splitArrowAux_cons2, if_pos ⟨rfl, rfl⟩]
  rw [splitArrowAux_clean (spc :: body) (hasArrow_cons_of spc body (by decide) hbody) []]
  simp

/-- The character splitter never returns an empty list. -/
theorem splitChar_ne_nil (sep : Char) (s : Str) : splitChar sep s ≠ [] := by
  cases s with
  | nil => simp [splitChar]
  | cons c t =>
    unfold splitChar
    by_cases h : c = sep
    · simp [h]
    · rw [if_neg h]
      cases splitChar sep t with
      | nil => simp
      | cons hh r => simp

/-- Splitting at a leading separator emits an empty piece. -/
theorem splitChar_sep_cons (sep : Char) (t : Str) :
    splitChar sep (sep :: t) = [] :: splitChar sep t := by
  show (if sep = sep then [] :: splitChar sep t else _) = _
  rw [if_pos rfl]

/-- Splitting past a non-separator character prepends it to the first
piece. -/
theorem splitChar_nosep_cons (sep c : Char) (t : Str) (h : c ≠ sep) :
    splitChar sep (c :: t) =
      (c :: (splitChar sep t).headI) :: (splitChar sep t).tail := by
  show (if c = sep then [] :: splitChar sep t
        else match splitChar sep t with
          | h :: r => (c :: h) :: r
          | [] => [[c]]) = _
  rw [if_neg h]
  cases hs : splitChar sep t with
  | nil => exact absurd hs (splitChar_ne_nil sep t)
  | cons hh r => simp

/-- Splitting past a separator-free segment prepends it to the first
piece. -/
theorem splitChar_append_nosep (sep : Char) :
    ∀ (s : Str), sep ∉ s → ∀ (t : Str),
    splitChar sep (s ++ t) = (s ++ (splitChar sep t).headI) :: (splitChar sep t).tail := by
  intro s
  induction s with
  | nil =>
    intro _ t
    rw [List.nil_append]
    cases hs : splitChar sep t with
    | nil => exact absurd hs (splitChar_ne_nil sep t)
    | cons hh r => simp
  | cons c cs ih =>
    intro hmem t
    have hc : c ≠ sep := fun he => hmem (he ▸ List.mem_cons_self c cs)
    rw [List.cons_append, splitChar_nosep_cons sep c _ hc,
      ih (fun hm => hmem (List.mem_cons_of_mem _ hm)) t]
    simp

/-- A separator-free string splits into itself. -/
theorem splitChar_no_sep (sep : Char) (s : Str) (h : sep ∉ s) : splitChar sep s = [s] := by
  have heq := splitChar_append_nosep sep s h []
  rw [List.append_nil] at heq
  rw [heq]
  simp [splitChar]

/-- Splitting a separator-joined list of separator-free strings recovers
the list. -/
theorem splitChar_preJoin (sep : Char) (f : α → Str) :
    ∀ (ls : List α) (s : Str), sep ∉ s → (∀ x ∈ ls, sep ∉ f x) →
    splitChar sep (s ++ preJoin [sep] f ls) = s :: ls.map f := by
  intro ls
  induction ls with
  | nil =>
    intro s hs _
    rw [show preJoin [sep] f [] = [] from rfl, List.append_nil]
    rw [splitChar_no_sep sep s hs]
    simp
  | cons x t ih =>
    intro s hs hls
    rw [show s ++ preJoin [sep] f (x :: t) =
      s ++ (sep :: (f x ++ preJoin [sep] f t)) from by simp [preJoin]]
    rw [splitChar_append_nosep sep s hs, splitChar_sep_cons]
    rw [ih (f x) (hls x (List.mem_cons_self _ _)) (fun y hy => hls y (List.mem_cons_of_mem _ hy))]
    simp

/-- Splitting a pipe-joined production body yields the padded alternative
pieces. -/
theorem splitChar_altTail :
    ∀ (ps : List (List Str)) (s : Str), pipeCh ∉ s →
    (∀ q ∈ ps, pipeCh ∉ joinSpaces q) →
    splitChar pipeCh (s ++ preJoin (str " | ") joinSpaces ps) =
      (s ++ if ps = [] then [] else [spc]) :: altPiecesTail ps := by
  intro ps
  induction ps with
  | nil =>
    intro s hs _
    rw [show preJoin (str " | ") joinSpaces [] = [] from rfl, List.append_nil]
    rw [splitChar_no_sep pipeCh s hs]
    simp [altPiecesTail]
  | cons q t ih =>
    intro s hs hq
    have hshape : s ++ preJoin (str " | ") joinSpaces (q :: t) =
        (s ++ [spc]) ++ (pipeCh :: ((spc :: joinSpaces q) ++ preJoin (str " | ") joinSpaces t)) := by
      rw [show preJoin (str " | ") joinSpaces (q :: t) =
        str " | " ++ joinSpaces q ++ preJoin (str " | ") joinSpaces t from rfl]
      rw [show str " | " = [spc, pipeCh, spc] from by decide]
      simp
    rw [hshape]
    have hs2 : pipeCh ∉ s ++ [spc] := by
      intro hm
      rcases List.mem_append.mp hm with h1 | h2
      · exact hs h1
      · rw [List.mem_singleton] at h2
        exact (by decide : pipeCh ≠ spc) h2
    rw [splitChar_append_nosep pipeCh (s ++ [spc]) hs2, splitChar_sep_cons]
    rw [ih (spc :: joinSpaces q) (by
        intro hm
        rcases List.mem_cons.mp hm with h1 | h2
        · exact (by decide : pipeCh ≠ spc) h1
        · exact hq q (List.mem_cons_self _ _) h2)
      (fun y hy => hq y (List.mem_cons_of_mem _ hy))]
    simp [altPiecesTail]

/-- A successful `head?` yields a member. -/
theorem head?_mem' {α : Type} (l : List α) (a : α) (h : l.head? = some a) : a ∈ l := by
  cases l with
  | nil => simp at h
  | cons x t =>
    simp at h
    rw [← h]
    exact List.mem_cons_self _ _

/-- A successful `getLast?` yields a member. -/
theorem getLast?_mem' {α : Type} (l : List α) (a : α) (h : l.getLast? = some a) : a ∈ l := by
  have hr : l.reverse.head? = some a := by rw [List.head?_reverse]; exact h
  exact List.mem_reverse.mp (head?_mem' _ _ hr)

/-- The last element of an append with non-empty right part. -/
theorem getLast?_append_right {α : Type} (a b : List α) (hb : b ≠ []) :
    (a ++ b).getLast? = b.getLast? := by
  rw [← List.head?_reverse, ← List.head?_reverse, List.reverse_append]
  cases hbr : b.reverse with
  | nil => exact absurd (by simpa using hbr) hb
  | cons x xs => simp

/-- Strip is the identity on whitespace-free strings. -/
theorem pstrip_no_wsp (s : Str) (h : ∀ c ∈ s, ¬(c = spc ∨ c = nl)) : pstrip s = s :=
  pstrip_of_ends s (fun c hc => h c (head?_mem' s c hc)) (fun c hc => h c (getLast?_mem' s c hc))

/-- Feeding clean characters accumulates them into `cur`. -/
theorem tokFold_chars :
    ∀ (cs : Str), (∀ c ∈ cs, c ≠ spc ∧ c ≠ qch ∧ c ≠ bsl) →
    ∀ (ret : List Str) (cur : Str) (b : Bool) (rest : Str), ∃ b2 : Bool,
    tokFold ⟨ret, cur, false, false, b⟩ (cs ++ rest) =
      tokFold ⟨ret, cur ++ cs, false, false, b2⟩ rest := by
  intro cs
  induction cs with
  | nil =>
    intro _ ret cur b rest
    exact ⟨b, by simp⟩
  | cons c t ih =>
    intro hcs ret cur b rest
    have hc := hcs c (List.mem_cons_self _ _)
    have hstep : tokStep ⟨ret, cur, false, false, b⟩ c =
        some ⟨ret, cur ++ [c], false, false, false⟩ := by
      unfold tokStep
      simp [hc.1, hc.2.1, hc.2.2]
    obtain ⟨b2, hb2⟩ := ih (fun x hx => hcs x (List.mem_cons_of_mem _ hx)) ret (cur ++ [c])
      false rest
    refine ⟨b2, ?_⟩
    rw [show (c :: t) ++ rest = c :: (t ++ rest) from rfl]
    rw [show tokFold ⟨ret, cur, false, false, b⟩ (c :: (t ++ rest)) =
      (match tokStep ⟨ret, cur, false, false, b⟩ c with
       | none => none
       | some st2 => tokFold st2 (t ++ rest)) from rfl]
    rw [hstep]
    show tokFold ⟨ret, cur ++ [c], false, false, false⟩ (t ++ rest) = _
    rw [hb2]
    simp

/-- A space flushes a non-empty clean `cur` into `ret`. -/
theorem tokFold_flush (ret : List Str) (tok : Str) (htok : tok ≠ [])
    (hwsp : ∀ c ∈ tok, ¬(c = spc ∨ c = nl)) (b : Bool) (rest : Str) :
    tokFold ⟨ret, tok, false, false, b⟩ (spc :: rest) =
      tokFold ⟨ret ++ [tok], [], false, false, true⟩ rest := by
  have hstep : tokStep ⟨ret, tok, false, false, b⟩ spc =
      some ⟨ret ++ [tok], [], false, false, true⟩ := by
    unfold tokStep
    simp [pstrip_no_wsp tok hwsp, htok]
  rw [show tokFold ⟨ret, tok, false, false, b⟩ (spc :: rest) =
    (match tokStep ⟨ret, tok, false, false, b⟩ spc with
     | none => none
     | some st2 => tokFold st2 rest) from rfl]
  rw [hstep]

/-- A space with empty `cur` only sets the whitespace flag. -/
theorem tokFold_spc_empty (ret : List Str) (b : Bool) (rest : Str) :
    tokFold ⟨ret, [], false, false, b⟩ (spc :: rest) =
      tokFold ⟨ret, [], false, false, true⟩ rest := by
  have hstep : tokStep ⟨ret, [], false, false, b⟩ spc =
      some ⟨ret, [], false, false, true⟩ := by
    unfold tokStep
    simp [pstrip]
  rw [show tokFold ⟨ret, [], false, false, b⟩ (spc :: rest) =
    (match tokStep ⟨ret, [], false, false, b⟩ spc with
     | none => none
     | some st2 => tokFold st2 rest) from rfl]
  rw [hstep]

/-- Clean-token character facts packaged for the tokenizer lemmas. -/
theorem prodOk_chars (p : List Str) (h : prodOk p) :
    ∀ tok ∈ p, tok ≠ [] ∧ ∀ c ∈ tok, c ≠ spc ∧ c ≠ nl ∧ c ≠ qch ∧ c ≠ bsl := by
  intro tok htok
  refine ⟨(h.2.1 tok htok).1, fun c hc => ?_⟩
  have := symClean_char tok (h.2.1 tok htok).2 c hc
  exact ⟨this.1, this.2.1, this.2.2.1, this.2.2.2.1⟩

/-- Feeding a space-joined token list followed by a space appends the
tokens to `ret`. -/
theorem tokFold_join :
    ∀ (p : List Str), p ≠ [] →
    (∀ tok ∈ p, tok ≠ [] ∧ ∀ c ∈ tok, c ≠ spc ∧ c ≠ nl ∧ c ≠ qch ∧ c ≠ bsl) →
    ∀ (ret : List Str) (b : Bool) (rest : Str),
    tokFold ⟨ret, [], false, false, b⟩ ((joinSpaces p ++ [spc]) ++ rest) =
      tokFold ⟨ret ++ p, [], false, false, true⟩ rest := by
  intro p
  induction p with
  | nil => intro hp; exact absurd rfl hp
  | cons tok t ih =>
    intro _ hcl ret b rest
    have htok := hcl tok (List.mem_cons_self _ _)
    have htri : ∀ c ∈ tok, c ≠ spc ∧ c ≠ qch ∧ c ≠ bsl := fun c hc =>
      ⟨(htok.2 c hc).1, (htok.2 c hc).2.2.1, (htok.2 c hc).2.2.2⟩
    have hwsp : ∀ c ∈ tok, ¬(c = spc ∨ c = nl) := by
      intro c hc hor
      rcases hor with h1 | h1
      · exact (htok.2 c hc).1 h1
      · exact (htok.2 c hc).2.1 h1
    cases t with
    | nil =>
      rw [show ((joinSpaces [tok] ++ [spc]) ++ rest) = tok ++ (spc :: rest) from by
        simp [joinSpaces]]
      obtain ⟨b2, hb2⟩ := tokFold_chars tok htri ret [] b (spc :: rest)
      rw [hb2]
      rw [show ([] : Str) ++ tok = tok from rfl]
      rw [tokFold_flush ret tok htok.1 hwsp b2 rest]
    | cons q r =>
      rw [show ((joinSpaces (tok :: q :: r) ++ [spc]) ++ rest) =
        tok ++ (spc :: ((joinSpaces (q :: r) ++ [spc]) ++ rest)) from by
        show (((tok ++ [spc] ++ joinSpaces (q :: r)) ++ [spc]) ++ rest) = _
        simp]
      obtain ⟨b2, hb2⟩ := tokFold_chars tok htri ret [] b
        (spc :: ((joinSpaces (q :: r) ++ [spc]) ++ rest))
      rw [hb2]
      rw [show ([] : Str) ++ tok = tok from rfl]
      rw [tokFold_flush ret tok htok.1 hwsp b2 _]
      rw [ih (by simp) (fun x hx => hcl x (List.mem_cons_of_mem _ hx)) (ret ++ [tok]) true rest]
      simp

/-- The nl character is not a clean-token character (helper fact). -/
theorem tokenize_padded (p : List Str) (lead trail : Bool) (h : prodOk p) :
    tokenize ((if lead then [spc] else []) ++ joinSpaces p ++
      (if trail then [spc] else [])) = some p := by
  have hcl := prodOk_chars p h
  unfold tokenize
  have hshape : ((if lead then [spc] else []) ++ joinSpaces p ++
      (if trail then [spc] else [])) ++ [spc] =
      (if lead then [spc] else []) ++
        ((joinSpaces p ++ [spc]) ++ (if trail then [spc] else [])) := by
    cases trail <;> simp
  rw [hshape]
  have hmain : tokFold ⟨[], [], false, false, true⟩
      ((if lead then [spc] else []) ++
        ((joinSpaces p ++ [spc]) ++ (if trail then [spc] else []))) =
      some ⟨p, [], false, false, true⟩ := by
    have hafter : ∀ b : Bool, tokFold ⟨[], [], false, false, b⟩
        ((joinSpaces p ++ [spc]) ++ (if trail then [spc] else [])) =
        some ⟨p, [], false, false, true⟩ := by
      intro b
      rw [tokFold_join p h.1 hcl [] b _]
      cases trail with
      | false => simp [tokFold]
      | true =>
        rw [if_pos rfl, show ([] : List Str) ++ p = p from List.nil_append p]
        rw [tokFold_spc_empty p true []]
        rfl
    cases lead with
    | false => simpa using hafter true
    | true =>
      rw [if_pos rfl]
      rw [show ([spc] ++ ((joinSpaces p ++ [spc]) ++ (if trail then [spc] else []))) =
        spc :: ((joinSpaces p ++ [spc]) ++ (if trail then [spc] else [])) from rfl]
      rw [tokFold_spc_empty [] true _]
      exact hafter true
  rw [hmain]
  show (if ([] : Str) ≠ [] then none
    else if p.length ≠ 1 then some (p.filter (fun x => decide (x ≠ str "#")))
    else some p) = some p
  rw [if_neg (by simp)]
  by_cases hlen : p.length = 1
  · rw [if_neg (by simp [hlen])]
  · rw [if_pos hlen]
    have hnh : (str "#") ∉ p := by
      intro hmem
      have := h.2.2 hmem
      rw [this] at hlen
      exact hlen rfl
    rw [List.filter_eq_self.mpr (fun a ha => by
      simp
      intro heq
      rw [heq] at ha
      exact hnh ha)]

/-- Cons-cons unfolding of the space join. -/
theorem joinSpaces_cons_cons (tok q : Str) (r : List Str) :
    joinSpaces (tok :: q :: r) = tok ++ [spc] ++ joinSpaces (q :: r) := rfl

/-- A space join of non-empty tokens is non-empty. -/
theorem joinSpaces_ne_nil (p : List Str) (hp : p ≠ []) (hne : ∀ tok ∈ p, tok ≠ []) :
    joinSpaces p ≠ [] := by
  cases p with
  | nil => exact absurd rfl hp
  | cons tok t =>
    cases t with
    | nil => exact hne tok (List.mem_cons_self _ _)
    | cons q r =>
      rw [joinSpaces_cons_cons]
      intro hcontra
      simp at hcontra

/-- Characters of a space join come from the tokens or are spaces. -/
theorem mem_joinSpaces :
    ∀ (p : List Str) (c : Char), c ∈ joinSpaces p → c = spc ∨ ∃ tok ∈ p, c ∈ tok := by
  intro p
  induction p with
  | nil => intro c h; simp [joinSpaces] at h
  | cons tok t ih =>
    intro c h
    cases t with
    | nil => exact Or.inr ⟨tok, List.mem_cons_self _ _, h⟩
    | cons q r =>
      rw [joinSpaces_cons_cons] at h
      rcases List.mem_append.mp h with h1 | h2
      · rcases List.mem_append.mp h1 with h3 | h4
        · exact Or.inr ⟨tok, List.mem_cons_self _ _, h3⟩
        · exact Or.inl (List.mem_singleton.mp h4)
      · rcases ih c h2 with h5 | ⟨tk, htk, hc⟩
        · exact Or.inl h5
        · exact Or.inr ⟨tk, List.mem_cons_of_mem _ htk, hc⟩

/-- Characters of a separator join come from the separator or the
pieces. -/
theorem mem_preJoin {α : Type} (sep : Str) (f : α → Str) :
    ∀ (ls : List α) (c : Char), c ∈ preJoin sep f ls → c ∈ sep ∨ ∃ x ∈ ls, c ∈ f x := by
  intro ls
  induction ls with
  | nil => intro c h; simp [preJoin] at h
  | cons x t ih =>
    intro c h
    rw [show preJoin sep f (x :: t) = sep ++ f x ++ preJoin sep f t from rfl] at h
    rcases List.mem_append.mp h with h1 | h2
    · rcases List.mem_append.mp h1 with h3 | h4
      · exact Or.inl h3
      · exact Or.inr ⟨x, List.mem_cons_self _ _, h4⟩
    · rcases ih c h2 with h5 | ⟨y, hy, hc⟩
      · exact Or.inl h5
      · exact Or.inr ⟨y, List.mem_cons_of_mem _ hy, hc⟩

/-- The head of an append with non-empty left part. -/
theorem head?_append_left {α : Type} (a b : List α) (ha : a ≠ []) :
    (a ++ b).head? = a.head? := by
  cases a with
  | nil => exact absurd rfl ha
  | cons x t => rfl

/-- The first character of a space join is the first character of the
first token. -/
theorem joinSpaces_head? (tok : Str) (t : List Str) (htok : tok ≠ []) :
    (joinSpaces (tok :: t)).head? = tok.head? := by
  cases t with
  | nil => rfl
  | cons q r =>
    rw [joinSpaces_cons_cons, List.append_assoc]
    exact head?_append_left tok _ htok

/-- The last character of a space join is the last character of one of the
tokens. -/
theorem joinSpaces_getLast? :
    ∀ (p : List Str), p ≠ [] → (∀ tok ∈ p, tok ≠ []) →
    ∃ tok ∈ p, (joinSpaces p).getLast? = tok.getLast? := by
  intro p
  induction p with
  | nil => intro hp _; exact absurd rfl hp
  | cons tok t ih =>
    intro _ hne
    cases t with
    | nil => exact ⟨tok, List.mem_cons_self _ _, rfl⟩
    | cons q r =>
      obtain ⟨tk, htk, heq⟩ := ih (by simp) (fun x hx => hne x (List.mem_cons_of_mem _ hx))
      refine ⟨tk, List.mem_cons_of_mem _ htk, ?_⟩
      rw [joinSpaces_cons_cons]
      rw [getLast?_append_right (tok ++ [spc]) _ (joinSpaces_ne_nil (q :: r) (by simp)
        (fun x hx => hne x (List.mem_cons_of_mem _ hx)))]
      exact heq

/-- Arrow-freeness is preserved by appends whose boundary cannot complete
a `->` pair. -/
theorem hasArrow_append_of :
    ∀ (a : Str), hasArrow a = false → ∀ (b : Str), hasArrow b = false →
    (∀ la hd, a.getLast? = some la → b.head? = some hd → ¬(la = '-' ∧ hd = '>')) →
    hasArrow (a ++ b) = false := by
  intro a
  induction a with
  | nil =>
    intro _ b hb _
    simpa using hb
  | cons c cs ih =>
    intro ha b hb hcond
    cases cs with
    | nil =>
      cases b with
      | nil => rfl
      | cons d t =>
        show ((decide (c = '-') && decide (d = '>')) || hasArrow (d :: t)) = false
        have hnand : ¬(c = '-' ∧ d = '>') := hcond c d (by simp) rfl
        simp [hb]
        tauto
    | cons c2 cs2 =>
      have hsplit : ((decide (c = '-') && decide (c2 = '>')) || hasArrow (c2 :: cs2)) = false := ha
      obtain ⟨h1, h2⟩ := Bool.or_eq_false_iff.mp hsplit
      show ((decide (c = '-') && decide (c2 = '>')) || hasArrow (c2 :: (cs2 ++ b))) = false
      rw [h1, Bool.false_or]
      exact (show hasArrow ((c2 :: cs2) ++ b) = false from ih h2 b hb (by
        intro la hd hla hhd
        apply hcond la hd _ hhd
        rw [← hla]
        simp))

/-- A space join of arrow-free tokens is arrow-free. -/
theorem hasArrow_joinSpaces :
    ∀ (p : List Str), (∀ tok ∈ p, hasArrow tok = false) →
    hasArrow (joinSpaces p) = false := by
  intro p
  induction p with
  | nil => intro _; rfl
  | cons tok t ih =>
    intro h
    cases t with
    | nil => exact h tok (List.mem_cons_self _ _)
    | cons q r =>
      rw [joinSpaces_cons_cons, List.append_assoc]
      apply hasArrow_append_of tok (h tok (List.mem_cons_self _ _))
      · show hasArrow (spc :: joinSpaces (q :: r)) = false
        exact hasArrow_cons_of spc _ (by decide) (ih (fun x hx => h x (List.mem_cons_of_mem _ hx)))
      · intro la hd _ hhd
        have : hd = spc := by
          have : (spc :: joinSpaces (q :: r)).head? = some spc := rfl
          rw [show ([spc] ++ joinSpaces (q :: r)) = spc :: joinSpaces (q :: r) from rfl] at hhd
          rw [this] at hhd
          exact (Option.some.inj hhd).symm
        rw [this]
        rintro ⟨_, hgt⟩
        exact absurd hgt (by decide)

/-- The head of a non-empty pipe-joined body tail is a space. -/
theorem preJoinAlt_head?_spc (q : List Str) (r : List (List Str)) :
    (preJoin (str " | ") joinSpaces (q :: r)).head? = some spc := rfl

/-- A pipe join of space joins of arrow-free tokens is arrow-free. -/
theorem hasArrow_preJoinAlt :
    ∀ (ps : List (List Str)), (∀ q ∈ ps, ∀ tok ∈ q, hasArrow tok = false) →
    hasArrow (preJoin (str " | ") joinSpaces ps) = false := by
  intro ps
  induction ps with
  | nil => intro _; rfl
  | cons q t ih =>
    intro h
    rw [show preJoin (str " | ") joinSpaces (q :: t) =
      str " | " ++ joinSpaces q ++ preJoin (str " | ") joinSpaces t from rfl]
    rw [List.append_assoc]
    rw [show str " | " = [spc, pipeCh, spc] from by decide]
    show hasArrow (spc :: pipeCh :: spc ::
      (joinSpaces q ++ preJoin (str " | ") joinSpaces t)) = false
    apply hasArrow_cons_of spc _ (by decide)
    apply hasArrow_cons_of pipeCh _ (by decide)
    apply hasArrow_cons_of spc _ (by decide)
    apply hasArrow_append_of (joinSpaces q)
      (hasArrow_joinSpaces q (h q (List.mem_cons_self _ _)))
      _ (ih (fun x hx => h x (List.mem_cons_of_mem _ hx)))
    intro la hd _ hhd
    cases t with
    | nil => simp [preJoin] at hhd
    | cons q2 r =>
      rw [preJoinAlt_head?_spc] at hhd
      rw [(Option.some.inj hhd).symm]
      rintro ⟨_, hgt⟩
      exact absurd hgt (by decide)

/-- `ntermStr` expanded: symbol, arrow, then the pipe-joined body. -/
theorem ntermStr_eq (nt : Str) (p : List Str) (t : List (List Str)) :
    ntermStr nt (p :: t) =
      nt ++ str " -> " ++ (joinSpaces p ++ preJoin (str " | ") joinSpaces t) := by
  unfold ntermStr
  rw [foldl_sep_eq]
  rw [show ([] : Str) ++ preJoin (str " | ") joinSpaces (p :: t) =
    preJoin (str " | ") joinSpaces (p :: t) from List.nil_append _]
  rw [show preJoin (str " | ") joinSpaces (p :: t) =
    [spc, pipeCh, spc] ++ (joinSpaces p ++ preJoin (str " | ") joinSpaces t) from by
    rw [show preJoin (str " | ") joinSpaces (p :: t) =
      str " | " ++ joinSpaces p ++ preJoin (str " | ") joinSpaces t from rfl]
    rw [show str " | " = [spc, pipeCh, spc] from by decide, List.append_assoc]]
  rfl

/-- Token cleanliness packaged from `prodOk`. -/
theorem prodOk_tok_clean (p : List Str) (h : prodOk p) (tok : Str) (ht : tok ∈ p) :
    tok ≠ [] ∧ ∀ c ∈ tok, c ≠ spc ∧ c ≠ nl ∧ c ≠ qch ∧ c ≠ bsl ∧ c ≠ pipeCh :=
  ⟨(h.2.1 tok ht).1, fun c hc => symClean_char tok (h.2.1 tok ht).2 c hc⟩

/-- A joined production contains no pipe character. -/
theorem pipe_not_mem_joinSpaces (q : List Str) (h : prodOk q) : pipeCh ∉ joinSpaces q := by
  intro hm
  rcases mem_joinSpaces q pipeCh hm with h1 | ⟨tok, htok, hc⟩
  · exact absurd h1 (by decide)
  · exact ((prodOk_tok_clean q h tok htok).2 pipeCh hc).2.2.2.2 rfl

/-- A joined production contains no newline. -/
theorem nl_not_mem_joinSpaces (q : List Str) (h : prodOk q) : nl ∉ joinSpaces q := by
  intro hm
  rcases mem_joinSpaces q nl hm with h1 | ⟨tok, htok, hc⟩
  · exact absurd h1 (by decide)
  · exact ((prodOk_tok_clean q h tok htok).2 nl hc).2.1 rfl

/-- A list with a successful `head?` is non-empty. -/
theorem ne_nil_of_head?_some {α : Type} (l : List α) (a : α) (h : l.head? = some a) :
    l ≠ [] := by
  intro hn
  rw [hn] at h
  simp at h

/-- The last character of a non-empty pipe-joined body tail is the last
character of one of its tokens. -/
theorem preJoinAlt_getLast? :
    ∀ (ps : List (List Str)), ps ≠ [] → (∀ q ∈ ps, prodOk q) →
    ∃ q ∈ ps, ∃ tok ∈ q,
      (preJoin (str " | ") joinSpaces ps).getLast? = tok.getLast? := by
  intro ps
  induction ps with
  | nil => intro hp _; exact absurd rfl hp
  | cons q t ih =>
    intro _ hok
    have hq := hok q (List.mem_cons_self _ _)
    have hjne : joinSpaces q ≠ [] :=
      joinSpaces_ne_nil q hq.1 (fun x hx => (hq.2.1 x hx).1)
    cases t with
    | nil =>
      obtain ⟨tok, htok, heq⟩ := joinSpaces_getLast? q hq.1 (fun x hx => (hq.2.1 x hx).1)
      refine ⟨q, List.mem_cons_self _ _, tok, htok, ?_⟩
      rw [show preJoin (str " | ") joinSpaces [q] =
        (str " | " ++ joinSpaces q) ++ [] from rfl, List.append_nil]
      rw [getLast?_append_right _ _ hjne]
      exact heq
    | cons q2 r =>
      obtain ⟨qq, hqq, tok, htok, heq⟩ := ih (by simp)
        (fun x hx => hok x (List.mem_cons_of_mem _ hx))
      refine ⟨qq, List.mem_cons_of_mem _ hqq, tok, htok, ?_⟩
      rw [show preJoin (str " | ") joinSpaces (q :: q2 :: r) =
        (str " | " ++ joinSpaces q) ++ preJoin (str " | ") joinSpaces (q2 :: r) from rfl]
      rw [getLast?_append_right _ _
        (ne_nil_of_head?_some _ spc (preJoinAlt_head?_spc q2 r))]
      exact heq

/-- The head of a production body is not whitespace. -/
theorem body_head (p : List Str) (t : List (List Str)) (hp : prodOk p) :
    ∀ c, (joinSpaces p ++ preJoin (str " | ") joinSpaces t).head? = some c →
      ¬(c = spc ∨ c = nl) := by
  intro c hc
  rw [head?_append_left _ _
    (joinSpaces_ne_nil p hp.1 (fun x hx => (hp.2.1 x hx).1))] at hc
  cases p with
  | nil => exact absurd rfl hp.1
  | cons tok ptail =>
    rw [joinSpaces_head? tok ptail (hp.2.1 tok (List.mem_cons_self _ _)).1] at hc
    have hcm := head?_mem' tok c hc
    have hcl := symClean_char tok (hp.2.1 tok (List.mem_cons_self _ _)).2 c hcm
    rintro (h1 | h1)
    · exact hcl.1 h1
    · exact hcl.2.1 h1

/-- The last character of a production body is not whitespace. -/
theorem body_getLast (p : List Str) (t : List (List Str)) (hp : prodOk p)
    (ht : ∀ q ∈ t, prodOk q) :
    ∀ c, (joinSpaces p ++ preJoin (str " | ") joinSpaces t).getLast? = some c →
      ¬(c = spc ∨ c = nl) := by
  intro c hc
  cases t with
  | nil =>
    rw [show preJoin (str " | ") joinSpaces ([] : List (List Str)) = [] from rfl,
      List.append_nil] at hc
    obtain ⟨tok, htok, heq⟩ := joinSpaces_getLast? p hp.1 (fun x hx => (hp.2.1 x hx).1)
    rw [heq] at hc
    have hcm := getLast?_mem' tok c hc
    have hcl := symClean_char tok (hp.2.1 tok htok).2 c hcm
    rintro (h1 | h1)
    · exact hcl.1 h1
    · exact hcl.2.1 h1
  | cons q r =>
    rw [getLast?_append_right _ _
      (ne_nil_of_head?_some _ spc (preJoinAlt_head?_spc q r))] at hc
    obtain ⟨qq, hqq, tok, htok, heq⟩ := preJoinAlt_getLast? (q :: r) (by simp) ht
    rw [heq] at hc
    have hcm := getLast?_mem' tok c hc
    have hcl := symClean_char tok ((ht qq hqq).2.1 tok htok).2 c hcm
    rintro (h1 | h1)
    · exact hcl.1 h1
    · exact hcl.2.1 h1

/-- A production body contains no `->` pair. -/
theorem hasArrow_body (p : List Str) (t : List (List Str)) (hp : prodOk p)
    (ht : ∀ q ∈ t, prodOk q) :
    hasArrow (joinSpaces p ++ preJoin (str " | ") joinSpaces t) = false := by
  apply hasArrow_append_of
  · exact hasArrow_joinSpaces p (fun tok htok => symClean_arrow tok (hp.2.1 tok htok).2)
  · exact hasArrow_preJoinAlt t
      (fun q hq tok htok => symClean_arrow tok ((ht q hq).2.1 tok htok).2)
  · intro la hd _ hhd
    cases t with
    | nil =>
      rw [show preJoin (str " | ") joinSpaces ([] : List (List Str)) = [] from rfl] at hhd
      simp at hhd
    | cons q r =>
      rw [preJoinAlt_head?_spc] at hhd
      have hds : hd = spc := (Option.some.inj hhd).symm
      rw [hds]
      rintro ⟨_, h2⟩
      exact absurd h2 (by decide)

/-- A production body is non-empty. -/
theorem body_ne_nil (p : List Str) (t : List (List Str)) (hp : prodOk p) :
    joinSpaces p ++ preJoin (str " | ") joinSpaces t ≠ [] := by
  intro h
  exact joinSpaces_ne_nil p hp.1 (fun x hx => (hp.2.1 x hx).1) (List.append_eq_nil.mp h).1

/-- Splitting one `__str__` rule line on `->` and stripping the pieces
recovers the symbol and the body. -/
theorem ntermStr_parse (nt : Str) (p : List Str) (t : List (List Str))
    (hnt1 : nt ≠ []) (hnt2 : symClean nt = true)
    (hp : prodOk p) (ht : ∀ q ∈ t, prodOk q) :
    (splitArrow (ntermStr nt (p :: t))).map pstrip =
      [nt, joinSpaces p ++ preJoin (str " | ") joinSpaces t] := by
  have hnth : ∀ c, nt.head? = some c → ¬(c = spc ∨ c = nl) := by
    intro c hc
    have hcl := symClean_char nt hnt2 c (head?_mem' nt c hc)
    rintro (h1 | h1)
    · exact hcl.1 h1
    · exact hcl.2.1 h1
  have hntl : ∀ c, nt.getLast? = some c → ¬(c = spc ∨ c = nl) := by
    intro c hc
    have hcl := symClean_char nt hnt2 c (getLast?_mem' nt c hc)
    rintro (h1 | h1)
    · exact hcl.1 h1
    · exact hcl.2.1 h1
  rw [ntermStr_eq]
  rw [splitArrow_line nt _ (symClean_arrow nt hnt2) (hasArrow_body p t hp ht)]
  rw [List.map_cons, List.map_cons, List.map_nil]
  rw [show pstrip (nt ++ [spc]) = nt from by
    have h := pstrip_pad nt false true hnt1 hnth hntl
    simpa using h]
  rw [show pstrip (spc :: (joinSpaces p ++ preJoin (str " | ") joinSpaces t)) =
      joinSpaces p ++ preJoin (str " | ") joinSpaces t from by
    have h := pstrip_pad _ true false (body_ne_nil p t hp) (body_head p t hp)
      (body_getLast p t hp ht)
    simpa using h]

/-- A `__str__` rule line contains no newline. -/
theorem nl_not_mem_ntermStr (nt : Str) (p : List Str) (t : List (List Str))
    (hnt2 : symClean nt = true) (hp : prodOk p) (ht : ∀ q ∈ t, prodOk q) :
    nl ∉ ntermStr nt (p :: t) := by
  rw [ntermStr_eq]
  intro hm
  rcases List.mem_append.mp hm with h1 | h2
  · rcases List.mem_append.mp h1 with h3 | h4
    · exact (symClean_char nt hnt2 nl h3).2.1 rfl
    · exact absurd h4 (by decide)
  · rcases List.mem_append.mp h2 with h5 | h6
    · exact nl_not_mem_joinSpaces p hp h5
    · rcases mem_preJoin (str " | ") joinSpaces t nl h6 with h7 | ⟨q, hq, h8⟩
      · exact absurd h7 (by decide)
      · exact nl_not_mem_joinSpaces q (ht q hq) h8

/-- Folding the tokenizer over the padded tail pieces of a pipe-joined
body adds exactly the listed productions. -/
theorem altTail_fold :
    ∀ (ts : List (List Str)), (∀ q ∈ ts, prodOk q) →
    ∀ (acc : List (List Str)), ∃ L,
    (altPiecesTail ts).foldl
      (fun acc2 y =>
        match acc2, tokenize y with
        | some l, some q => some (if q ∈ l then l else l ++ [q])
        | _, _ => none) (some acc) = some L ∧
    ∀ q, q ∈ L ↔ q ∈ acc ∨ q ∈ ts := by
  intro ts
  induction ts with
  | nil =>
    intro _ acc
    refine ⟨acc, rfl, fun q => ?_⟩
    simp
  | cons x t ih =>
    intro hok acc
    have hx := hok x (List.mem_cons_self _ _)
    have htokx : tokenize (spc :: (joinSpaces x ++ if t = [] then [] else [spc])) = some x := by
      by_cases ht : t = []
      · rw [if_pos ht]
        have h := tokenize_padded x true false hx
        simpa using h
      · rw [if_neg ht]
        have h := tokenize_padded x true true hx
        simpa using h
    rw [show altPiecesTail (x :: t) =
      (spc :: (joinSpaces x ++ if t = [] then [] else [spc])) :: altPiecesTail t from rfl]
    obtain ⟨L, hL, hiff⟩ := ih (fun q hq => hok q (List.mem_cons_of_mem _ hq))
      (if x ∈ acc then acc else acc ++ [x])
    refine ⟨L, ?_, fun q => ?_⟩
    · rw [List.foldl_cons, htokx]
      exact hL
    rw [hiff q]
    by_cases hxacc : x ∈ acc
    · rw [if_pos hxacc]
      constructor
      · rintro (h1 | h1)
        · exact Or.inl h1
        · exact Or.inr (List.mem_cons_of_mem _ h1)
      · rintro (h1 | h1)
        · exact Or.inl h1
        · rcases List.mem_cons.mp h1 with he | hm
          · exact Or.inl (by rw [he]; exact hxacc)
          · exact Or.inr hm
    · rw [if_neg hxacc]
      constructor
      · rintro (h1 | h1)
        · rcases List.mem_append.mp h1 with h2 | h2
          · exact Or.inl h2
          · exact Or.inr (List.mem_cons.mpr (Or.inl (List.mem_singleton.mp h2)))
        · exact Or.inr (List.mem_cons_of_mem _ h1)
      · rintro (h1 | h1)
        · exact Or.inl (List.mem_append.mpr (Or.inl h1))
        · rcases List.mem_cons.mp h1 with he | hm
          · exact Or.inl (List.mem_append.mpr (Or.inr (by simp [he])))
          · exact Or.inr hm

/-- Re-tokenizing a production body yields exactly the original production
set. -/
theorem mkNontermProds_body (p : List Str) (t : List (List Str))
    (hok : ∀ x ∈ p :: t, prodOk x) :
    ∃ L, mkNontermProds [joinSpaces p ++ preJoin (str " | ") joinSpaces t] = some L ∧
      ∀ q, q ∈ L ↔ q ∈ p :: t := by
  have hp := hok p (List.mem_cons_self _ _)
  have hsplit := splitChar_altTail t (joinSpaces p) (pipe_not_mem_joinSpaces p hp)
    (fun q hq => pipe_not_mem_joinSpaces q (hok q (List.mem_cons_of_mem _ hq)))
  simp only [mkNontermProds, List.foldl_cons, List.foldl_nil]
  rw [hsplit]
  have htokfirst : tokenize (joinSpaces p ++ if t = [] then [] else [spc]) = some p := by
    by_cases ht : t = []
    · rw [if_pos ht]
      have h := tokenize_padded p false false hp
      simpa using h
    · rw [if_neg ht]
      have h := tokenize_padded p false true hp
      simpa using h
  obtain ⟨L, hL, hiff⟩ := altTail_fold t (fun q hq => hok q (List.mem_cons_of_mem _ hq)) [p]
  refine ⟨L, ?_, fun q => ?_⟩
  · rw [List.foldl_cons, htokfirst]
    exact hL
  rw [hiff q]
  simp [List.mem_cons]

/-- Fold accumulators are preserved by the production concatenation
fold. -/
theorem mem_prodFold_acc :
    ∀ (ps : List (List Str)) (acc : List Str) (x : Str), x ∈ acc →
    x ∈ ps.foldr (fun p a => p ++ a) acc := by
  intro ps
  induction ps with
  | nil => intro acc x h; exact h
  | cons q t ih => intro acc x h; exact List.mem_append.mpr (Or.inr (ih acc x h))

/-- Production tokens appear in the production concatenation fold. -/
theorem mem_prodFold :
    ∀ (ps : List (List Str)) (acc : List Str) (p : List Str), p ∈ ps → ∀ tok ∈ p,
    tok ∈ ps.foldr (fun p a => p ++ a) acc := by
  intro ps
  induction ps with
  | nil => intro acc p h; simp at h
  | cons q t ih =>
    intro acc p hp tok htok
    rcases List.mem_cons.mp hp with he | hm
    · exact List.mem_append.mpr (Or.inl (by rw [← he]; exact htok))
    · exact List.mem_append.mpr (Or.inr (ih acc p hm tok htok))

/-- Rule keys appear in the symbol fold. -/
theorem mem_symFold_key :
    ∀ (rs : List (Str × List (List Str))) (kv : Str × List (List Str)), kv ∈ rs →
    kv.1 ∈ rs.foldr (fun kv acc => kv.1 :: kv.2.foldr (fun p a => p ++ a) acc) [] := by
  intro rs
  induction rs with
  | nil => intro kv h; simp at h
  | cons kv2 t ih =>
    intro kv hkv
    rcases List.mem_cons.mp hkv with he | hm
    · rw [he]
      exact List.mem_cons_self _ _
    · exact List.mem_cons_of_mem _ (mem_prodFold_acc kv2.2 _ kv.1 (ih kv hm))

/-- Production tokens appear in the symbol fold. -/
theorem mem_symFold_tok :
    ∀ (rs : List (Str × List (List Str))) (kv : Str × List (List Str)), kv ∈ rs →
    ∀ p ∈ kv.2, ∀ tok ∈ p,
    tok ∈ rs.foldr (fun kv acc => kv.1 :: kv.2.foldr (fun p a => p ++ a) acc) [] := by
  intro rs
  induction rs with
  | nil => intro kv h; simp at h
  | cons kv2 t ih =>
    intro kv hkv p hp tok htok
    rcases List.mem_cons.mp hkv with he | hm
    · apply List.mem_cons_of_mem
      apply mem_prodFold kv2.2 _ p _ tok htok
      rw [← he]
      exact hp
    · exact List.mem_cons_of_mem _ (mem_prodFold_acc kv2.2 _ tok (ih kv hm p hp tok htok))

/-- The structural consequences of `c10WF` used by the round-trip
argument. -/
theorem c10WF_unpack (g : PyGrammar) (h : c10WF g = true) :
    (g.rules.map Prod.fst).Nodup ∧ g.start ∈ g.rules.map Prod.fst ∧
    g.start ≠ [] ∧ symClean g.start = true ∧
    (∀ kv ∈ g.rules, kv.1 ≠ [] ∧ symClean kv.1 = true ∧ kv.2 ≠ [] ∧
      ∀ p ∈ kv.2, prodOk p) := by
  simp only [c10WF, Bool.and_eq_true, List.all_eq_true, decide_eq_true_eq,
    Bool.or_eq_true] at h
  obtain ⟨⟨⟨hsym, hnd⟩, hstart⟩, hrules⟩ := h
  have hstartsym := hsym g.start (List.mem_cons_self _ _)
  refine ⟨hnd, hstart, hstartsym.2, hstartsym.1, fun kv hkv => ?_⟩
  have hkey := hsym kv.1 (List.mem_cons_of_mem _ (mem_symFold_key g.rules kv hkv))
  have hr := hrules kv hkv
  refine ⟨hkey.2, hkey.1, hr.1, fun p hp => ?_⟩
  have hpp := hr.2 p hp
  refine ⟨hpp.1, fun tok htok => ?_, fun hhash => ?_⟩
  · have hts := hsym tok
      (List.mem_cons_of_mem _ (mem_symFold_tok g.rules kv hkv p hp tok htok))
    exact ⟨hts.2, hts.1⟩
  · rcases hpp.2 with hno | hyes
    · exact absurd hhash hno
    · exact hyes

/-- A key absent from a dict stays absent after appending a different
key. -/
theorem alookup_append_none {β : Type} (k : Str) (a : List (Str × β)) (k2 : Str) (v : β)
    (ha : alookup k a = none) (hk : k ≠ k2) : alookup k (a ++ [(k2, v)]) = none := by
  induction a with
  | nil => simp [alookup, lookupBy, streq, hk]
  | cons kv t ih =>
    rw [show (kv :: t) ++ [(k2, v)] = kv :: (t ++ [(k2, v)]) from rfl]
    rw [show kv = (kv.1, kv.2) from rfl, alookup_cons] at ha ⊢
    by_cases hkk : k = kv.1
    · rw [if_pos hkk] at ha
      exact absurd ha (by simp)
    · rw [if_neg hkk] at ha ⊢
      exact ih ha

/-- Per-non-terminal facts of the round trip: the rule line splits into
symbol and body, contains no newline, and its body re-tokenizes into the
original production set. -/
theorem gLookup_parse (g : PyGrammar) (h : c10WF g = true) (nt : Str)
    (hnt : nt ∈ g.rules.map Prod.fst) :
    (splitArrow (ntermStr nt (gLookup g nt))).map pstrip = [nt, bodyOf g nt] ∧
    nl ∉ ntermStr nt (gLookup g nt) ∧
    ∃ L, mkNontermProds [bodyOf g nt] = some L ∧
      ∀ q, q ∈ L ↔ q ∈ gLookup g nt := by
  obtain ⟨hnd, hstart, hsne, hssym, hkv⟩ := c10WF_unpack g h
  have hsome : (alookup nt g.rules).isSome := (alookup_isSome_iff_mem nt g.rules).mpr hnt
  obtain ⟨ps, hps⟩ := Option.isSome_iff_exists.mp hsome
  have hmem : (nt, ps) ∈ g.rules := alookup_mem nt g.rules ps hps
  have hglk : gLookup g nt = ps := by simp [gLookup, hps]
  have hkv2 := hkv (nt, ps) hmem
  cases hpst : ps with
  | nil =>
    rw [hpst] at hkv2
    exact absurd rfl hkv2.2.2.1
  | cons p t =>
    rw [hpst] at hkv2
    have hok : ∀ x ∈ p :: t, prodOk x := fun x hx => hkv2.2.2.2 x hx
    have hbody : bodyOf g nt = joinSpaces p ++ preJoin (str " | ") joinSpaces t := by
      simp [bodyOf, hglk, hpst]
    rw [hglk, hpst, hbody]
    refine ⟨?_, ?_, ?_⟩
    · exact ntermStr_parse nt p t hkv2.1 hkv2.2.1 (hok p (List.mem_cons_self _ _))
        (fun q hq => hok q (List.mem_cons_of_mem _ hq))
    · exact nl_not_mem_ntermStr nt p t hkv2.2.1 (hok p (List.mem_cons_self _ _))
        (fun q hq => hok q (List.mem_cons_of_mem _ hq))
    · exact mkNontermProds_body p t hok

/-- Every `nonterms` entry is a rule key. -/
theorem mem_nonterms_keys (g : PyGrammar) (hstart : g.start ∈ g.rules.map Prod.fst) :
    ∀ nt ∈ nonterms g, nt ∈ g.rules.map Prod.fst := by
  intro nt h
  have h2 : nt ∈ g.start ::
      (g.rules.map Prod.fst).filter (fun x => decide (x ≠ g.start)) := h
  rcases List.mem_cons.mp h2 with he | hm
  · rw [he]
    exact hstart
  · exact (List.mem_filter.mp hm).1

/-- Every rule key is a `nonterms` entry. -/
theorem keys_sub_nonterms (g : PyGrammar) :
    ∀ k ∈ g.rules.map Prod.fst, k ∈ nonterms g := by
  intro k hk
  show k ∈ g.start :: (g.rules.map Prod.fst).filter (fun x => decide (x ≠ g.start))
  by_cases he : k = g.start
  · rw [he]
    exact List.mem_cons_self _ _
  · exact List.mem_cons_of_mem _ (List.mem_filter.mpr ⟨hk, by simp [he]⟩)

/-- `nonterms` is duplicate-free when the rule keys are. -/
theorem nonterms_nodup (g : PyGrammar) (hnd : (g.rules.map Prod.fst).Nodup) :
    (nonterms g).Nodup := by
  show (g.start :: (g.rules.map Prod.fst).filter (fun x => decide (x ≠ g.start))).Nodup
  rw [List.nodup_cons]
  constructor
  · intro hm
    have := (List.mem_filter.mp hm).2
    simp at this
  · exact hnd.filter _

/-- The first pass of grammar construction collects the start symbol and
one right-hand-side string per rule line. -/
theorem fromRulesVals_map :
    ∀ (nts : List Str) (g : PyGrammar), c10WF g = true →
    (∀ nt ∈ nts, nt ∈ g.rules.map Prod.fst) →
    ∀ (start0 : Str) (vals : List (Str × List Str)), start0 ≠ [] →
    (∀ nt ∈ nts, alookup nt vals = none) → nts.Nodup →
    fromRulesVals (nts.map (fun nt => ntermStr nt (gLookup g nt))) start0 vals =
      some (start0, vals ++ nts.map (fun nt => (nt, [bodyOf g nt]))) := by
  intro nts
  induction nts with
  | nil =>
    intro g _ _ start0 vals _ _ _
    simp [fromRulesVals]
  | cons nt rest ih =>
    intro g hwf hkeys start0 vals hs0 hlook hnd
    have hnd' := List.nodup_cons.mp hnd
    obtain ⟨hparse, _, _⟩ := gLookup_parse g hwf nt (hkeys nt (List.mem_cons_self _ _))
    simp only [List.map_cons]
    show (match (splitArrow (ntermStr nt (gLookup g nt))).map pstrip with
      | [sym, rhs] =>
        fromRulesVals (List.map (fun nt => ntermStr nt (gLookup g nt)) rest)
          (if start0 = [] then sym else start0)
          (match alookup sym vals with
           | some l => aupd sym (l ++ [rhs]) vals
           | none => vals ++ [(sym, [rhs])])
      | _ => none) = _
    rw [hparse]
    show fromRulesVals (List.map (fun nt => ntermStr nt (gLookup g nt)) rest)
        (if start0 = [] then nt else start0)
        (match alookup nt vals with
         | some l => aupd nt (l ++ [bodyOf g nt]) vals
         | none => vals ++ [(nt, [bodyOf g nt])]) = _
    rw [if_neg hs0, hlook nt (List.mem_cons_self _ _)]
    show fromRulesVals (List.map (fun nt => ntermStr nt (gLookup g nt)) rest) start0
        (vals ++ [(nt, [bodyOf g nt])]) = _
    rw [ih g hwf (fun x hx => hkeys x (List.mem_cons_of_mem _ hx)) start0
      (vals ++ [(nt, [bodyOf g nt])]) hs0
      (fun x hx => alookup_append_none x vals nt _ (hlook x (List.mem_cons_of_mem _ hx))
        (fun he => hnd'.1 (by rw [← he]; exact hx)))
      hnd'.2]
    rw [List.append_assoc]
    rfl

/-- The second pass of grammar construction tokenizes each collected body
back into the original production set. -/
theorem rulesFold_map :
    ∀ (nts : List Str) (g : PyGrammar), c10WF g = true →
    (∀ nt ∈ nts, nt ∈ g.rules.map Prod.fst) →
    ∃ rs : List (Str × List (List Str)),
    (nts.map (fun nt => (nt, [bodyOf g nt]))).foldr
      (fun kv acc =>
        match acc, mkNontermProds kv.2 with
        | some r, some ps => some ((kv.1, ps) :: r)
        | _, _ => none) (some []) = some rs ∧
    rs.map Prod.fst = nts ∧
    ∀ rec ∈ rs, ∀ q, q ∈ rec.2 ↔ q ∈ gLookup g rec.1 := by
  intro nts
  induction nts with
  | nil =>
    intro g _ _
    exact ⟨[], rfl, rfl, fun rec h => by simp at h⟩
  | cons nt rest ih =>
    intro g hwf hkeys
    obtain ⟨rs, hfold, hmap, hrec⟩ := ih g hwf (fun x hx => hkeys x (List.mem_cons_of_mem _ hx))
    obtain ⟨_, _, L, hmk, hiff⟩ := gLookup_parse g hwf nt (hkeys nt (List.mem_cons_self _ _))
    refine ⟨(nt, L) :: rs, ?_, ?_, ?_⟩
    · rw [List.map_cons, List.foldr_cons, hfold]
      show (match some rs, mkNontermProds [bodyOf g nt] with
        | some r, some ps => some ((nt, ps) :: r)
        | _, _ => none) = _
      rw [hmk]
    · rw [List.map_cons, hmap]
    · intro rec hr q
      rcases List.mem_cons.mp hr with he | hm
      · rw [he]
        exact hiff q
      · exact hrec rec hm q

/-- `str(g)` splits on newlines into the per-non-terminal rule lines. -/
theorem gstr_lines (g : PyGrammar) (h : c10WF g = true) :
    splitChar nl (gstr g) =
      (nonterms g).map (fun nt => ntermStr nt (gLookup g nt)) := by
  obtain ⟨hnd, hstart, hsne, hssym, hkv⟩ := c10WF_unpack g h
  have hline : ∀ nt ∈ nonterms g, nl ∉ ntermStr nt (gLookup g nt) := by
    intro nt hntm
    obtain ⟨_, hnl, _⟩ := gLookup_parse g h nt (mem_nonterms_keys g hstart nt hntm)
    exact hnl
  unfold gstr
  rw [foldl_sep_eq]
  rw [show nonterms g = g.start ::
    (g.rules.map Prod.fst).filter (fun x => decide (x ≠ g.start)) from rfl]
  rw [show (([] : Str) ++ preJoin [nl] (fun nt => ntermStr nt (gLookup g nt))
      (g.start :: (g.rules.map Prod.fst).filter (fun x => decide (x ≠ g.start)))).drop 1 =
    ntermStr g.start (gLookup g g.start) ++ preJoin [nl] (fun nt => ntermStr nt (gLookup g nt))
      ((g.rules.map Prod.fst).filter (fun x => decide (x ≠ g.start))) from rfl]
  rw [splitChar_preJoin nl (fun nt => ntermStr nt (gLookup g nt)) _ _
    (hline g.start (List.mem_cons_self _ _))
    (fun x hx => hline x (List.mem_cons_of_mem _ hx))]
  rw [List.map_cons]

/-- C10 (amended): for every well-formed grammar (clean non-empty symbols,
duplicate-free rule keys, a rule for the start symbol, non-empty
productions, and `#` only as the epsilon singleton), re-parsing the lines
of `str(g)` yields a grammar with the same start symbol whose rule records
equal those of `g` under Grammar equality. -/
theorem c10_roundtrip (g : PyGrammar) (h : c10WF g = true) :
    ∃ g2, fromRules (splitChar nl (gstr g)) = some g2 ∧
      g2.start = g.start ∧ gramEq g2 g = true := by
  obtain ⟨hnd, hstart, hsne, hssym, hkv⟩ := c10WF_unpack g h
  have hkeys := mem_nonterms_keys g hstart
  obtain ⟨rs, hfold, hmap, hrec⟩ := rulesFold_map (nonterms g) g h hkeys
  have hvals : fromRulesVals ((nonterms g).map (fun nt => ntermStr nt (gLookup g nt)))
      [] [] = some (g.start, (nonterms g).map (fun nt => (nt, [bodyOf g nt]))) := by
    rw [show nonterms g = g.start ::
      (g.rules.map Prod.fst).filter (fun x => decide (x ≠ g.start)) from rfl]
    simp only [List.map_cons]
    obtain ⟨hparse, _, _⟩ := gLookup_parse g h g.start hstart
    show (match (splitArrow (ntermStr g.start (gLookup g g.start))).map pstrip with
      | [sym, rhs] =>
        fromRulesVals (((g.rules.map Prod.fst).filter (fun x => decide (x ≠ g.start))).map
            (fun nt => ntermStr nt (gLookup g nt)))
          (if ([] : Str) = [] then sym else [])
          (match alookup sym [] with
           | some l => aupd sym (l ++ [rhs]) []
           | none => [] ++ [(sym, [rhs])])
      | _ => none) = _
    rw [hparse]
    show fromRulesVals (((g.rules.map Prod.fst).filter (fun x => decide (x ≠ g.start))).map
        (fun nt => ntermStr nt (gLookup g nt))) g.start
        [(g.start, [bodyOf g g.start])] = _
    rw [fromRulesVals_map ((g.rules.map Prod.fst).filter (fun x => decide (x ≠ g.start)))
      g h (fun x hx => (List.mem_filter.mp hx).1) g.start
      [(g.start, [bodyOf g g.start])] hsne
      (fun x hx => by
        rw [alookup_cons, if_neg]
        · rfl
        · have := (List.mem_filter.mp hx).2
          simpa using this)
      (hnd.filter _)]
    rfl
  have hfr : fromRules ((nonterms g).map (fun nt => ntermStr nt (gLookup g nt))) =
      some ⟨rs, g.start⟩ := by
    unfold fromRules
    rw [hvals]
    show (match ((nonterms g).map (fun nt => (nt, [bodyOf g nt]))).foldr
        (fun kv acc =>
          match acc, mkNontermProds kv.2 with
          | some r, some ps => some ((kv.1, ps) :: r)
          | _, _ => none) (some []) with
      | none => none
      | some r => some (⟨r, g.start⟩ : PyGrammar)) = _
    rw [hfold]
  rw [gstr_lines g h]
  refine ⟨⟨rs, g.start⟩, hfr, rfl, ?_⟩
  have hksub1 : ∀ k ∈ rs.map Prod.fst, k ∈ g.rules.map Prod.fst := by
    rw [hmap]
    exact hkeys
  have hksub2 : ∀ k ∈ g.rules.map Prod.fst, k ∈ rs.map Prod.fst := by
    rw [hmap]
    exact keys_sub_nonterms g
  simp only [gramEq, Bool.and_eq_true, List.all_eq_true, decide_eq_true_eq]
  refine ⟨⟨fun k hk => hksub1 k hk, fun k hk => hksub2 k hk⟩, fun kv hkv2 => ?_⟩
  have hkk : kv.1 ∈ g.rules.map Prod.fst := hksub1 kv.1 (List.mem_map.mpr ⟨kv, hkv2, rfl⟩)
  obtain ⟨ps, hps⟩ := Option.isSome_iff_exists.mp ((alookup_isSome_iff_mem kv.1 g.rules).mpr hkk)
  rw [hps]
  show prodSetEq kv.2 ps = true
  rw [prodSetEq_iff]
  intro q
  have hglk : gLookup g kv.1 = ps := by simp [gLookup, hps]
  rw [← hglk]
  exact hrec kv hkv2 q

/-- Witness: the round trip at the concrete test grammar
`S -> C C ; C -> e C | d`. -/
theorem c10_roundtrip_witness :
    c10WF gBasic = true ∧
    ∃ g2, fromRules (splitChar nl (gstr gBasic)) = some g2 ∧
      g2.start = gBasic.start ∧ gramEq g2 gBasic = true :=
  ⟨by decide, c10_roundtrip gBasic (by decide)⟩

end Quicc
